import Mathlib

/-!
Shallow embedding of the provider-deduplication core in
`src/dedupe_providers.py` (normalization, blocking, pair scoring,
threshold classification, union-find clustering, canonical-id
assignment), together with theorems settling the frozen claims.

Modelling conventions:
* Python `str` is modelled by Lean `String` / `List Char`; the regex
  character classes of the source are modelled over ASCII (`\s` is
  space/tab/newline/carriage-return, `\w` is `[a-zA-Z0-9_]`,
  lower-casing is ASCII lower-casing).
* Python `float` arithmetic in the scorer is modelled by exact rational
  arithmetic (`ℚ`); the score weights 6.0, 5.0, 3.0, 1.0, 1.5, 0.8,
  0.6, 4.0 become rational literals.
* The pandas DataFrame is modelled as a `List` of records whose index
  is the list position (the default RangeIndex of the source's
  `pd.read_csv`), so `roster.index` is `0, …, n-1` and the source's
  `index_to_pos` map is the identity.
* Python `set` iteration order is unspecified; the candidate set is
  modelled as a duplicate-free list in a canonical order, and results
  about clustering are proved order-independent.
-/

/-- ASCII model of the regex class `\s` (matches Python's ASCII
whitespace relevant here). -/
def isSpace (c : Char) : Bool := c = ' ' || c = '\t' || c = '\n' || c = '\r'

/-- ASCII model of the regex class `\w` used by `\b` word boundaries:
letters, digits and underscore. -/
def isWordChar (c : Char) : Bool := c.isAlphanum || c = '_'

/-- Characters kept by the class `[^a-z0-9\s]` substitution: lower-case
ASCII letters and digits. -/
def isLowerAlnum (c : Char) : Bool := ('a' ≤ c && c ≤ 'z') || ('0' ≤ c && c ≤ '9')

/-- Python `str.strip()` on a character list. -/
def stripC (l : List Char) : List Char :=
  ((l.dropWhile isSpace).reverse.dropWhile isSpace).reverse

/-- `re.sub(r'[\.,]', ' ', s)`. -/
def dotCommaToSpace (l : List Char) : List Char :=
  l.map (fun c => if c = '.' || c = ',' then ' ' else c)

/-- The honorific/suffix tokens removed by `normalize_name`
(`dr|md|do|prof|mr|mrs|ms|jr|sr|ii|iii`). -/
def honorifics : List (List Char) :=
  [['d','r'], ['m','d'], ['d','o'], ['p','r','o','f'], ['m','r'],
   ['m','r','s'], ['m','s'], ['j','r'], ['s','r'], ['i','i'], ['i','i','i']]

/-- Split a character list into maximal runs of characters agreeing on
`isWordChar`; `b` is the word-status of the run being accumulated and
`cur` its characters in reverse. -/
def runsAux (b : Bool) (cur : List Char) : List Char → List (List Char)
  | [] => [cur.reverse]
  | c :: cs =>
    if isWordChar c = b then runsAux b (c :: cur) cs
    else cur.reverse :: runsAux (isWordChar c) [c] cs

/-- Maximal homogeneous runs of word / non-word characters. -/
def charRuns : List Char → List (List Char)
  | [] => []
  | c :: cs => runsAux (isWordChar c) [c] cs

/-- One run after honorific removal: a whole-word match of
`\b(dr|md|…)\b` is exactly a maximal word run equal to one of the
honorifics (the alternatives consist of word characters only, so a
match must span a full run); it is replaced by the empty string. -/
def dropHonorific (r : List Char) : List Char :=
  if r ∈ honorifics then [] else r

/-- `re.sub(r'\b(dr|md|do|prof|mr|mrs|ms|jr|sr|ii|iii)\b', '', s)`. -/
def stripHonorifics (l : List Char) : List Char :=
  ((charRuns l).map dropHonorific).flatten

/-- `re.sub(r'[^a-z0-9\s]', ' ', s)`. -/
def keepAlnumSpace (l : List Char) : List Char :=
  l.map (fun c => if isLowerAlnum c || isSpace c then c else ' ')

/-- Split on `\s+`, keeping non-empty tokens; `cur` is the token being
accumulated, in reverse. -/
def wordsAux (cur : List Char) : List Char → List (List Char)
  | [] => if cur.isEmpty then [] else [cur.reverse]
  | c :: cs =>
    if isSpace c then
      if cur.isEmpty then wordsAux [] cs else cur.reverse :: wordsAux [] cs
    else wordsAux (c :: cur) cs

/-- The whitespace-separated tokens of a character list
(`[t for t in re.split(r'\s+', s) if t]`). -/
def wordsC (l : List Char) : List (List Char) := wordsAux [] l

/-- Join tokens with single spaces: composed with `wordsC` this is
`re.sub(r'\s+', ' ', s).strip()` (collapse runs of whitespace to a
single space, then strip the ends). -/
def unwordsC (ws : List (List Char)) : List Char := (ws.intersperse [' ']).flatten

/-- `normalize_name` from the source: lower-case, strip, periods and
commas to spaces, remove honorific tokens, non-alphanumerics to
spaces, collapse whitespace, strip. -/
def normalize_name (s : String) : String :=
  ⟨unwordsC (wordsC (keepAlnumSpace (stripHonorifics
      (dotCommaToSpace (stripC (s.data.map Char.toLower))))))⟩

/-- `normalize_phone`: keep digits only (`re.sub(r'[^0-9]', '', s)`). -/
def normalize_phone (s : String) : String := ⟨s.data.filter Char.isDigit⟩

/-- `name_tokens`: whitespace tokens of a string. -/
def name_tokens (s : String) : List String := (wordsC s.data).map List.asString

/-- `last_name_prefix(s, n)` of the source (renamed for the
development): first `n` characters of the last whitespace token, empty
if there are no tokens. -/
def last_name_pref (s : String) (n : Nat) : String :=
  match (name_tokens s).getLast? with
  | some t => ⟨t.data.take n⟩
  | none => ""

/-- `phone_last4`: last four characters when the string has at least
four, else empty. -/
def phone_last4 (s : String) : String :=
  if s.data.length ≥ 4 then ⟨s.data.drop (s.data.length - 4)⟩ else ""

/-- `token_overlap`: Jaccard overlap of whitespace-token sets, 1.0 when
both sets are empty (source returns `len(inter)/len(uni) if uni else
0.0` after that special case). -/
def token_overlap (a b : String) : ℚ :=
  let sa := (name_tokens a).toFinset
  let sb := (name_tokens b).toFinset
  if sa = ∅ ∧ sb = ∅ then 1
  else
    let inter := sa ∩ sb
    let uni := sa ∪ sb
    if uni ≠ ∅ then (inter.card : ℚ) / (uni.card : ℚ) else 0

/-- Length of the longest common run starting at the heads of the two
lists. -/
def commonRunLen : List Char → List Char → Nat
  | a :: as, b :: bs => if a = b then commonRunLen as bs + 1 else 0
  | _, _ => 0

/-- `difflib.SequenceMatcher.find_longest_match` over the full ranges
(no junk: the inputs here are far below the autojunk threshold):
the triple `(i, j, k)` with `a[i:i+k] == b[j:j+k]`, `k` maximal, ties
broken by smallest `i`, then smallest `j` (scanning in ascending order
and keeping the incumbent unless a strictly longer block appears). -/
def findLongestMatch (a b : List Char) : Nat × Nat × Nat :=
  (List.range a.length).foldl (fun best i =>
    (List.range b.length).foldl (fun best j =>
      if best.2.2 < commonRunLen (a.drop i) (b.drop j) then
        (i, j, commonRunLen (a.drop i) (b.drop j))
      else best) best) (0, 0, 0)

/-- Total size of the matching blocks of `SequenceMatcher` (the `M` of
`ratio = 2.0*M/T`): recursively take the longest match and recurse on
the parts to its left and to its right.  The fuel argument dominates
the recursion depth (each recursive call strictly shrinks the combined
length when a non-empty block was found). -/
def matchTotal : Nat → List Char → List Char → Nat
  | 0, _, _ => 0
  | fuel+1, a, b =>
    if (findLongestMatch a b).2.2 = 0 then 0
    else
      matchTotal fuel (a.take (findLongestMatch a b).1)
          (b.take (findLongestMatch a b).2.1) +
        (findLongestMatch a b).2.2 +
        matchTotal fuel
          (a.drop ((findLongestMatch a b).1 + (findLongestMatch a b).2.2))
          (b.drop ((findLongestMatch a b).2.1 + (findLongestMatch a b).2.2))

/-- `seq_ratio` of the source (renamed `seqRatio`): 1.0 when both
strings are empty, else `SequenceMatcher(None, a, b).ratio()
= 2*M/T` with `T` the combined length. -/
def seqRatio (a b : String) : ℚ :=
  if a = "" ∧ b = "" then 1
  else 2 * (matchTotal (a.data.length + b.data.length) a.data b.data : ℚ) /
        ((a.data.length : ℚ) + (b.data.length : ℚ))

/-- One input row of `dedupe` (the columns the source reads; missing
values already filled with the empty string, as `fillna('')` does). -/
structure ProviderRow where
  provider_id : String
  full_name : String
  npi : String
  license_number : String
  license_state : String
  practice_phone : String
  practice_address_line1 : String
  practice_city : String
  practice_state : String
  practice_zip : String
  taxonomy_code : String
deriving DecidableEq, Repr, Inhabited

/-- The derived (normalized) columns the source adds to the roster. -/
structure NormRow where
  provider_id : String
  name_norm : String
  npi_norm : String
  license_norm : String
  license_state_norm : String
  phone_norm : String
  phone_last4 : String
  last_pref : String
  tax_norm : String
  addr_norm : String
deriving DecidableEq, Repr, Inhabited

/-- Python `str.strip()`. -/
def pstrip (s : String) : String := ⟨stripC s.data⟩

/-- Python `str.upper()` (ASCII). -/
def pupper (s : String) : String := ⟨s.data.map Char.toUpper⟩

/-- The address lambda of the source: lower-case, replace
`[^a-z0-9\s]` by spaces, collapse whitespace, strip. -/
def normalize_address (s : String) : String :=
  ⟨unwordsC (wordsC (keepAlnumSpace (s.data.map Char.toLower)))⟩

/-- The normalization block of `dedupe` (lines 66-75 of the source):
computes every derived column of one row. -/
def normalizeRow (r : ProviderRow) : NormRow :=
  let nm := normalize_name r.full_name
  let ph := normalize_phone r.practice_phone
  { provider_id := r.provider_id
    name_norm := nm
    npi_norm := pstrip r.npi
    license_norm := pupper (pstrip r.license_number)
    license_state_norm := pupper (pstrip r.license_state)
    phone_norm := ph
    phone_last4 := phone_last4 ph
    last_pref := last_name_pref nm 4
    tax_norm := pupper (pstrip r.taxonomy_code)
    addr_norm := normalize_address (r.practice_address_line1 ++ " " ++
      r.practice_city ++ " " ++ r.practice_state ++ " " ++ r.practice_zip) }

/-- The blocking keys one record contributes to (lines 80-86 of the
source); a key is added only under the non-emptiness conditions of the
corresponding `if`. -/
def blockKeys (r : NormRow) : List String :=
  (if r.npi_norm ≠ "" ∧ r.npi_norm ≠ "nan" then ["NPI::" ++ r.npi_norm] else []) ++
  (if r.license_norm ≠ "" ∧ r.license_state_norm ≠ "" ∧ r.license_norm ≠ "nan" then
      ["LIC::" ++ r.license_state_norm ++ "::" ++ r.license_norm] else []) ++
  (if r.last_pref ≠ "" then ["LNP::" ++ r.last_pref] else []) ++
  (if r.phone_last4 ≠ "" then ["PH4::" ++ r.phone_last4] else []) ++
  (if r.tax_norm ≠ "" then ["TAX::" ++ r.tax_norm] else [])

/-- Row lookup by position (total, with a default row that is never
reached at in-range indices). -/
def rowAt (rs : List NormRow) (i : Nat) : NormRow := rs.getD i default

/-- The members of one block, in ascending index order — exactly the
indices appended by the source's loop over `idx`, which runs in
ascending order, so the source's `sorted(set(v))` is the identity on
this list. -/
def blockMembers (rs : List NormRow) (k : String) : List Nat :=
  (List.range rs.length).filter (fun i => decide (k ∈ blockKeys (rowAt rs i)))

/-- `itertools.combinations(l, 2)`: all pairs `(l[i], l[j])` with
`i < j`, in the order the source generates them. -/
def pairsOf : List Nat → List (Nat × Nat)
  | [] => []
  | x :: xs => xs.map (fun y => (x, y)) ++ pairsOf xs

/-- All block keys occurring in the roster (the keys of the source's
`blocks` dict), without duplicates. -/
def allBlockKeys (rs : List NormRow) : List String :=
  ((rs.map blockKeys).flatten).dedup

/-- The candidate-pair set of lines 89-93 of the source: the union over
all blocks with more than one member of the 2-combinations of the
block's (sorted, duplicate-free) member list; `dedup` models the
Python `set`. -/
def candidateList (rs : List NormRow) : List (Nat × Nat) :=
  (((allBlockKeys rs).map (fun k =>
      let v := blockMembers rs k
      if 1 < v.length then pairsOf v else [])).flatten).dedup

/-- The per-pair signals computed by the scoring block (lines 100-113
of the source), in source order. -/
structure Signals where
  npi_eq : Bool
  lic_eq : Bool
  name_sim : ℚ
  tok_ov : ℚ
  ph4_eq : Bool
  addr_ov : ℚ
  tax_eq : Bool
  npi_conflict : Bool
deriving DecidableEq, Repr

/-- The additive total of the scoring block: each `if` of the source
contributes its bonus, the three ratio signals contribute their
weighted values, and the NPI conflict subtracts 4.0. -/
def totalScore (s : Signals) : ℚ :=
  (if s.npi_eq then 6 else 0) + (if s.lic_eq then 5 else 0) +
  s.name_sim * 3 + s.tok_ov * 1 +
  (if s.ph4_eq then 1.5 else 0) + s.addr_ov * 0.8 +
  (if s.tax_eq then 0.6 else 0) -
  (if s.npi_conflict then 4 else 0)

/-- The signal conditions of lines 101-113 of the source for one
candidate pair. -/
def signalsOf (ra rb : NormRow) : Signals :=
  { npi_eq := ra.npi_norm ≠ "" ∧ rb.npi_norm ≠ "" ∧ ra.npi_norm = rb.npi_norm
    lic_eq := ra.license_norm ≠ "" ∧ rb.license_norm ≠ "" ∧
      ra.license_state_norm ≠ "" ∧ rb.license_state_norm ≠ "" ∧
      ra.license_state_norm = rb.license_state_norm ∧ ra.license_norm = rb.license_norm
    name_sim := seqRatio ra.name_norm rb.name_norm
    tok_ov := token_overlap ra.name_norm rb.name_norm
    ph4_eq := ra.phone_last4 ≠ "" ∧ rb.phone_last4 ≠ "" ∧ ra.phone_last4 = rb.phone_last4
    addr_ov := token_overlap ra.addr_norm rb.addr_norm
    tax_eq := ra.tax_norm ≠ "" ∧ rb.tax_norm ≠ "" ∧ ra.tax_norm = rb.tax_norm
    npi_conflict := ra.npi_norm ≠ "" ∧ rb.npi_norm ≠ "" ∧ ra.npi_norm ≠ rb.npi_norm ∧
      ra.npi_norm ≠ "nan" ∧ rb.npi_norm ≠ "nan" }

/-- The score of one candidate pair. -/
def scorePair (ra rb : NormRow) : ℚ := totalScore (signalsOf ra rb)

/-- The classifier lambda of line 116 of the source. -/
def matchClass (td tp s : ℚ) : String :=
  if td ≤ s then "definite" else if tp ≤ s then "possible" else "nonmatch"

/-- The scored rows of the source's `pair_data` list (the sub-scores
the claims touch; the CSV-only rounded copies are not modelled). -/
structure PairRow where
  idx_a : Nat
  idx_b : Nat
  score : ℚ
deriving DecidableEq, Repr

/-- The scoring of one candidate pair inside the loop of lines 98-114
of the source. -/
def scoreRow (rs : List NormRow) (p : Nat × Nat) : PairRow :=
  { idx_a := p.1, idx_b := p.2, score := scorePair (rowAt rs p.1) (rowAt rs p.2) }

/-- The scored pair table (one row per candidate pair). -/
def scoredPairs (rs : List NormRow) : List PairRow :=
  (candidateList rs).map (scoreRow rs)

/-- Control flow of the scoring loop of lines 97-114 of the source,
with the loop body abstracted as a fallible computation (a Python
`for` body that raises aborts the loop and propagates the exception;
the source has no `try`/`except` around the body).  Instantiated with
`fun p => Except.ok (scoreRow rs p)` this is exactly the source's
loop, whose body is total. -/
def scoreLoop {α : Type} (f : Nat × Nat → Except String α) :
    List (Nat × Nat) → Except String (List α)
  | [] => Except.ok []
  | p :: ps =>
    match f p with
    | Except.error e => Except.error e
    | Except.ok row =>
      match scoreLoop f ps with
      | Except.error e => Except.error e
      | Except.ok rows => Except.ok (row :: rows)

/-- The definite pairs handed to the clusterer (line 121 of the
source): candidate pairs whose score reaches `td`.  The source first
sorts the pair table by descending score; that sort is a permutation
of this list, and the clustering results below are proved invariant
under permutations of the processed pair list. -/
def definitePairs (td tp : ℚ) (rs : List NormRow) : List (Nat × Nat) :=
  (candidateList rs).filter (fun p =>
    matchClass td tp (scorePair (rowAt rs p.1) (rowAt rs p.2)) = "definite")

/-- Parent lookup in the union-find array (`self.p[x]`; total via a
default that makes out-of-range indices their own parents). -/
def parentOf (p : Array Nat) (x : Nat) : Nat := p.getD x x

/-- `UF.find` with path compression (`if self.p[x]!=x:
self.p[x]=self.find(self.p[x]); return self.p[x]`), fuel-indexed; the
fuel bounds the recursion depth, and `p.size` is always enough on a
well-formed state (proved below). -/
def findAux : Nat → Array Nat → Nat → Array Nat × Nat
  | 0, p, x => (p, x)
  | fuel+1, p, x =>
    if parentOf p x = x then (p, x)
    else
      ((findAux fuel p (parentOf p x)).1.setD x (findAux fuel p (parentOf p x)).2,
        (findAux fuel p (parentOf p x)).2)

/-- `UF.find`. -/
def ufFind (p : Array Nat) (x : Nat) : Array Nat × Nat := findAux p.size p x

/-- `UF.union`: find both roots (each find may compress paths), then
graft `rb` under `ra` when they differ. -/
def ufUnion (p : Array Nat) (a b : Nat) : Array Nat :=
  let fa := ufFind p a
  let fb := ufFind fa.1 b
  if fa.2 ≠ fb.2 then fb.1.setD fb.2 fa.2 else fb.1

/-- `UF.__init__`: `self.p = list(range(n))`. -/
def ufInit (n : Nat) : Array Nat := Array.range n

/-- The union loop of lines 121-123 of the source: union every
definite pair in list order. -/
def processPairs (p : Array Nat) (l : List (Nat × Nat)) : Array Nat :=
  l.foldl (fun q pr => ufUnion q pr.1 pr.2) p

/-- The root of `x`: iterating the parent map `p.size` times; on a
well-formed state this reaches the unique fixpoint of `x`'s parent
chain (what `UF.find` returns, proved below). -/
def rootD (p : Array Nat) (x : Nat) : Nat := (fun y => parentOf p y)^[p.size] x

/-- The union-find state after clustering the definite pairs. -/
def clusterState (td tp : ℚ) (rs : List NormRow) : Array Nat :=
  processPairs (ufInit rs.length) (definitePairs td tp rs)

/-- The cluster of record `i` (lines 124-126 of the source group the
records by `uf.find(i)`, visiting `i` in ascending order, so each
cluster's member list is ascending). -/
def clusterOf (p : Array Nat) (n : Nat) (i : Nat) : List Nat :=
  (List.range n).filter (fun j => decide (rootD p j = rootD p i))

/-- The canonical id assigned to record `i` by lines 128-139 of the
source: its own `provider_id` when its cluster is a singleton, else
`sorted(cand_ids)[0]` over the cluster's provider ids. -/
def canonicalId (rs : List NormRow) (p : Array Nat) (i : Nat) : String :=
  if (clusterOf p rs.length i).length = 1 then (rowAt rs i).provider_id
  else ((((clusterOf p rs.length i).map (fun m => (rowAt rs m).provider_id)).mergeSort
      (fun a b => a ≤ b)).headD "")

/-- The `dedup_cluster_id` column produced from an explicit list of
pairs to union. -/
def assignFromPairs (rs : List NormRow) (l : List (Nat × Nat)) : List String :=
  (List.range rs.length).map
    (canonicalId rs (processPairs (ufInit rs.length) l))

/-- The `dedup_cluster_id` column of `dedupe`'s returned roster. -/
def assignIds (td tp : ℚ) (rs : List NormRow) : List String :=
  assignFromPairs rs (definitePairs td tp rs)

/-- The full `dedupe` pipeline on raw rows (thresholds default to 5.0
and 3.0 in the source): normalized roster, scored pair table with
classes, and the cluster-id column. -/
def dedupe (rows : List ProviderRow) (td tp : ℚ) :
    List NormRow × List (PairRow × String) × List String :=
  let rs := rows.map normalizeRow
  (rs,
   (scoredPairs rs).map (fun r => (r, matchClass td tp r.score)),
   assignIds td tp rs)

/-! ### Basic facts about the similarity primitives -/

theorem token_overlap_of_eq {a b : String}
    (h : (name_tokens a).toFinset = (name_tokens b).toFinset) : token_overlap a b = 1 := by
  unfold token_overlap
  rw [← h]
  by_cases he : (name_tokens a).toFinset = ∅
  · simp [he]
  · simp only [he, and_self, if_false]
    rw [if_pos]
    · rw [Finset.inter_self, Finset.union_self, div_self]
      exact_mod_cast Finset.card_ne_zero.2 (Finset.nonempty_of_ne_empty he)
    · simpa [Finset.union_self] using he

theorem token_overlap_self (a : String) : token_overlap a a = 1 :=
  token_overlap_of_eq rfl

theorem commonRunLen_self (l : List Char) : commonRunLen l l = l.length := by
  induction l with
  | nil => rfl
  | cons c cs ih => simp [commonRunLen, ih]

theorem commonRunLen_le_left (a b : List Char) : commonRunLen a b ≤ a.length := by
  induction a generalizing b with
  | nil => simp [commonRunLen]
  | cons c cs ih =>
    cases b with
    | nil => simp [commonRunLen]
    | cons d ds =>
      by_cases h : c = d
      · simpa [commonRunLen, h] using ih ds
      · simp [commonRunLen, h]

theorem foldl_const {α β : Type} (f : β → α → β) (init : β) (l : List α)
    (h : ∀ x ∈ l, f init x = init) : l.foldl f init = init := by
  induction l with
  | nil => rfl
  | cons x xs ih =>
    rw [List.foldl_cons, h x (by simp)]
    exact ih (fun y hy => h y (by simp [hy]))

/-- On identical non-empty inputs the longest match is the whole
list, found first at `(0, 0)`. -/
theorem findLongestMatch_self {a : List Char} (ha : a ≠ []) :
    findLongestMatch a a = (0, 0, a.length) := by
  have hk : ∀ i j : Nat, commonRunLen (a.drop i) (a.drop j) ≤ a.length :=
    fun i j => le_trans (commonRunLen_le_left _ _) (by simp)
  have hinner : ∀ (i : Nat) (l : List Nat),
      l.foldl (fun best j =>
        if best.2.2 < commonRunLen (a.drop i) (a.drop j) then
          (i, j, commonRunLen (a.drop i) (a.drop j))
        else best) (0, 0, a.length) = (0, 0, a.length) := by
    intro i l
    apply foldl_const
    intro j _
    exact if_neg (by simpa using hk i j)
  obtain ⟨m, hm⟩ : ∃ m, a.length = m + 1 := by
    cases a with
    | nil => exact absurd rfl ha
    | cons c cs => exact ⟨cs.length, rfl⟩
  have hlen0 : 0 < a.length := by omega
  unfold findLongestMatch
  conv_lhs => rw [hm, List.range_succ_eq_map]
  simp only [List.foldl_cons]
  rw [if_pos (by simpa [commonRunLen_self] using hlen0)]
  simp only [List.drop_zero, commonRunLen_self]
  have hinner0 := hinner 0 ((List.range m).map Nat.succ)
  simp only [List.drop_zero] at hinner0
  rw [hinner0]
  apply foldl_const
  intro i _
  have hif : ¬ ((0, 0, a.length) : Nat × Nat × Nat).2.2 < commonRunLen (a.drop i) a := by
    simpa using le_trans (commonRunLen_le_left _ _) (by simp)
  rw [if_neg hif]
  exact hinner i _

theorem matchTotal_nil (fuel : Nat) : matchTotal fuel [] [] = 0 := by
  cases fuel with
  | zero => rfl
  | succ f => rfl

theorem matchTotal_self (fuel : Nat) (a : List Char) (hfuel : a.length < fuel) :
    matchTotal fuel a a = a.length := by
  rcases a with _ | ⟨c, cs⟩
  · cases fuel with
    | zero => rfl
    | succ f => rfl
  · obtain ⟨f, rfl⟩ : ∃ f, fuel = f + 1 := ⟨fuel - 1, by omega⟩
    rw [matchTotal]
    rw [findLongestMatch_self (by simp)]
    simp [matchTotal_nil]

/-- `seq_ratio` of a string with itself is 1.0 (identical strings have
one matching block covering everything). -/
theorem seqRatio_self (s : String) : seqRatio s s = 1 := by
  by_cases h : s = ""
  · simp [seqRatio, h]
  · have hd : s.data ≠ [] := fun hh => h (by
      cases s with
      | mk l => simp at hh; simp [hh])
    have hlen : 0 < s.data.length := List.length_pos.2 hd
    rw [seqRatio, if_neg (by simp [h])]
    rw [matchTotal_self _ _ (by omega)]
    have hq : (0 : ℚ) < (s.data.length : ℚ) := by exact_mod_cast hlen
    rw [div_eq_one_iff_eq (by linarith)]
    ring

theorem seqRatio_nonneg (a b : String) : 0 ≤ seqRatio a b := by
  unfold seqRatio
  by_cases h : a = "" ∧ b = ""
  · simp [h]
  · rw [if_neg h]
    apply div_nonneg
    · positivity
    · positivity

theorem token_overlap_nonneg (a b : String) : 0 ≤ token_overlap a b := by
  unfold token_overlap
  by_cases h : (name_tokens a).toFinset = ∅ ∧ (name_tokens b).toFinset = ∅
  · simp [h]
  · rw [if_neg h]
    by_cases h2 : (name_tokens a).toFinset ∪ (name_tokens b).toFinset ≠ ∅
    · rw [if_pos h2]
      positivity
    · rw [if_neg h2]

/-! ### Claim C8: monotonicity of the score in each positive signal -/

theorem bonus_mono {u v : Bool} (w : ℚ) (hw : 0 ≤ w) (huv : u = true → v = true) :
    (if u then w else 0) ≤ (if v then w else 0) := by
  cases u with
  | false => cases v <;> simp [hw]
  | true => simp [huv rfl]

/-- C8: the pair score is monotone in each positive signal: holding the
other sub-scores and equality conditions fixed, increasing the name
similarity ratio, the name token overlap, or the address token overlap,
or turning on any equality bonus, never decreases the total score
(stated simultaneously: a pointwise increase of the positive signals
with the conflict flag held fixed never decreases `totalScore`). -/
theorem claim8_score_monotone (s t : Signals)
    (h1 : s.name_sim ≤ t.name_sim) (h2 : s.tok_ov ≤ t.tok_ov) (h3 : s.addr_ov ≤ t.addr_ov)
    (h4 : s.npi_eq = true → t.npi_eq = true)
    (h5 : s.lic_eq = true → t.lic_eq = true)
    (h6 : s.ph4_eq = true → t.ph4_eq = true)
    (h7 : s.tax_eq = true → t.tax_eq = true)
    (h8 : s.npi_conflict = t.npi_conflict) :
    totalScore s ≤ totalScore t := by
  unfold totalScore
  rw [h8]
  have b4 := bonus_mono (u := s.npi_eq) (v := t.npi_eq) 6 (by norm_num) h4
  have b5 := bonus_mono (u := s.lic_eq) (v := t.lic_eq) 5 (by norm_num) h5
  have b6 := bonus_mono (u := s.ph4_eq) (v := t.ph4_eq) 1.5 (by norm_num) h6
  have b7 := bonus_mono (u := s.tax_eq) (v := t.tax_eq) 0.6 (by norm_num) h7
  have m1 : s.name_sim * 3 ≤ t.name_sim * 3 := by linarith
  have m2 : s.tok_ov * 1 ≤ t.tok_ov * 1 := by linarith
  have m3 : s.addr_ov * 0.8 ≤ t.addr_ov * 0.8 := by linarith
  linarith

/-- Witness for C8 at concrete signal vectors. -/
theorem claim8_witness :
    totalScore ⟨false, false, 0, 0, false, 0, false, false⟩ ≤
      totalScore ⟨true, true, 1, 1, true, 1, true, false⟩ :=
  claim8_score_monotone _ _ (by norm_num) (by norm_num) (by norm_num)
    (fun h => by cases h) (fun h => by cases h) (fun h => by cases h)
    (fun h => by cases h) rfl

/-! ### Claim C9: the literal string "nan" as an NPI value -/

/-- C9: the literal `"nan"` is treated asymmetrically as an NPI: a
record with `npi_norm = "nan"` joins no NPI block and never triggers
the −4.0 NPI-conflict penalty (in either pair position), yet a pair in
which both records have `npi_norm = "nan"` still satisfies the +6.0
NPI-equality condition. -/
theorem claim9_nan_asymmetric (r ra rb : NormRow) (hr : r.npi_norm = "nan")
    (ha : ra.npi_norm = "nan") (hb : rb.npi_norm = "nan") :
    (∀ v : String, ("NPI::" ++ v) ∉ blockKeys r) ∧
    (∀ x : NormRow,
      (signalsOf r x).npi_conflict = false ∧ (signalsOf x r).npi_conflict = false) ∧
    (signalsOf ra rb).npi_eq = true := by
  refine ⟨?_, ?_, ?_⟩
  · intro v hv
    simp [blockKeys, hr] at hv
    rcases hv with ⟨-, h⟩ | ⟨-, h⟩ | ⟨-, h⟩ | ⟨-, h⟩
    · have hh : (some 'N' : Option Char) = some 'L' :=
        congrArg (fun s : String => s.data.head?) h
      simp at hh
    · have hh : (some 'N' : Option Char) = some 'L' :=
        congrArg (fun s : String => s.data.head?) h
      simp at hh
    · have hh : (some 'N' : Option Char) = some 'P' :=
        congrArg (fun s : String => s.data.head?) h
      simp at hh
    · have hh : (some 'N' : Option Char) = some 'T' :=
        congrArg (fun s : String => s.data.head?) h
      simp at hh
  · intro x
    constructor <;> simp [signalsOf, hr]
  · simp [signalsOf, ha, hb]

/-- A normalized row with every field empty except a `"nan"` NPI. -/
def nanNpiRow : NormRow :=
  { provider_id := "A", name_norm := "", npi_norm := "nan", license_norm := "",
    license_state_norm := "", phone_norm := "", phone_last4 := "", last_pref := "",
    tax_norm := "", addr_norm := "" }

/-- Witness for C9 at a concrete row. -/
theorem claim9_witness :
    (∀ v : String, ("NPI::" ++ v) ∉ blockKeys nanNpiRow) ∧
    (∀ x : NormRow,
      (signalsOf nanNpiRow x).npi_conflict = false ∧
      (signalsOf x nanNpiRow).npi_conflict = false) ∧
    (signalsOf nanNpiRow nanNpiRow).npi_eq = true :=
  claim9_nan_asymmetric nanNpiRow nanNpiRow nanNpiRow rfl rfl rfl

/-! ### Claim C1: the conflict-override scenario -/

/-- A pair of rows instantiating the conflict-override scenario of C1:
identical non-empty normalized names, identical non-empty address
token sets, different non-empty NPIs (neither `"nan"`), all other
fields empty. -/
def c1RowA : NormRow :=
  { provider_id := "A", name_norm := "x", npi_norm := "1", license_norm := "",
    license_state_norm := "", phone_norm := "", phone_last4 := "", last_pref := "x",
    tax_norm := "", addr_norm := "y" }

def c1RowB : NormRow := { c1RowA with provider_id := "B", npi_norm := "2" }

theorem c1_score : scorePair c1RowA c1RowB = 4/5 := by
  have hsig : signalsOf c1RowA c1RowB =
      { npi_eq := false, lic_eq := false, name_sim := 1, tok_ov := 1,
        ph4_eq := false, addr_ov := 1, tax_eq := false, npi_conflict := true } := by
    unfold signalsOf
    have e1 : seqRatio c1RowA.name_norm c1RowB.name_norm = 1 := seqRatio_self _
    have e2 : token_overlap c1RowA.name_norm c1RowB.name_norm = 1 := token_overlap_self _
    have e3 : token_overlap c1RowA.addr_norm c1RowB.addr_norm = 1 := token_overlap_self _
    rw [e1, e2, e3]
    simp [c1RowA, c1RowB]
  rw [scorePair, hsig]
  norm_num [totalScore]

/-- Counterexample to C1 as stated: a candidate pair satisfying every
hypothesis of the claim (identical non-empty names, identical
non-empty address token sets, different non-empty NPIs, phone,
taxonomy and license all empty) whose total score is not −0.2: the
scoring block also adds the name-token-overlap term (+1.0), so the
score is 3.0 + 1.0 + 0.8 − 4.0 = 0.8. -/
theorem claim1_counterexample :
    c1RowA.name_norm = c1RowB.name_norm ∧ c1RowA.name_norm ≠ "" ∧
    (name_tokens c1RowA.addr_norm).toFinset = (name_tokens c1RowB.addr_norm).toFinset ∧
    (name_tokens c1RowA.addr_norm).toFinset ≠ ∅ ∧
    c1RowA.npi_norm ≠ "" ∧ c1RowB.npi_norm ≠ "" ∧ c1RowA.npi_norm ≠ c1RowB.npi_norm ∧
    c1RowA.phone_last4 = "" ∧ c1RowB.phone_last4 = "" ∧
    c1RowA.tax_norm = "" ∧ c1RowB.tax_norm = "" ∧
    c1RowA.license_norm = "" ∧ c1RowB.license_norm = "" ∧
    (0, 1) ∈ candidateList [c1RowA, c1RowB] ∧
    scorePair c1RowA c1RowB ≠ -(1/5) := by
  refine ⟨by decide, by decide, by decide, by decide, by decide, by decide, by decide,
    by decide, by decide, by decide, by decide, by decide, by decide, by decide, ?_⟩
  rw [c1_score]
  norm_num

/-- C1 (amended): for a candidate pair with identical non-empty
normalized names (sequence similarity 1.0), identical non-empty
normalized address token sets (overlap 1.0), NPIs both non-empty,
different, and neither the literal `"nan"`, and phone, taxonomy and
license fields all empty, the total score is 0.8
(3.0 + 1.0 + 0.8 − 4.0, the claim's sum omitted the +1.0 name
token-overlap term), and the pair is classified "nonmatch". -/
theorem claim1_amended (ra rb : NormRow)
    (hname : ra.name_norm = rb.name_norm) (hne : ra.name_norm ≠ "")
    (haddr : (name_tokens ra.addr_norm).toFinset = (name_tokens rb.addr_norm).toFinset)
    (haddrne : (name_tokens ra.addr_norm).toFinset ≠ ∅)
    (hna : ra.npi_norm ≠ "") (hnb : rb.npi_norm ≠ "") (hnn : ra.npi_norm ≠ rb.npi_norm)
    (hnan1 : ra.npi_norm ≠ "nan") (hnan2 : rb.npi_norm ≠ "nan")
    (hp1 : ra.phone_last4 = "") (ht1 : ra.tax_norm = "") (hl1 : ra.license_norm = "") :
    scorePair ra rb = 4/5 ∧ matchClass 5 3 (scorePair ra rb) = "nonmatch" := by
  have hsig : signalsOf ra rb =
      { npi_eq := false, lic_eq := false, name_sim := 1, tok_ov := 1,
        ph4_eq := false, addr_ov := 1, tax_eq := false, npi_conflict := true } := by
    unfold signalsOf
    have e1 : seqRatio ra.name_norm rb.name_norm = 1 := by rw [hname]; exact seqRatio_self _
    have e2 : token_overlap ra.name_norm rb.name_norm = 1 := by
      rw [hname]; exact token_overlap_self _
    have e3 : token_overlap ra.addr_norm rb.addr_norm = 1 := token_overlap_of_eq haddr
    simp [e1, e2, e3, hnn, hp1, ht1, hl1, hna, hnb, hnan1, hnan2]
  have hsc : scorePair ra rb = 4/5 := by
    rw [scorePair, hsig]
    norm_num [totalScore]
  refine ⟨hsc, ?_⟩
  rw [hsc]
  norm_num [matchClass]

/-- Witness for the amended C1 at the concrete pair. -/
theorem claim1_witness :
    scorePair c1RowA c1RowB = 4/5 ∧ matchClass 5 3 (scorePair c1RowA c1RowB) = "nonmatch" :=
  claim1_amended c1RowA c1RowB (by decide) (by decide) (by decide) (by decide)
    (by decide) (by decide) (by decide) (by decide) (by decide) (by decide)
    (by decide) (by decide)

/-! ### Claim C3: failure handling in the scoring loop -/

/-- C3 (amended): the scoring loop of `dedupe` contains no error
handling: if scoring any one candidate pair fails, the failure
propagates and the whole loop produces no result at all (no pair is
skipped, no partial pair table is returned).  With the source's actual
loop body, which is total, no pair ever fails. -/
theorem claim3_amended {α : Type} (f : Nat × Nat → Except String α)
    (ps : List (Nat × Nat)) (p : Nat × Nat) (hp : p ∈ ps) (e : String)
    (hf : f p = Except.error e) :
    ∃ e2, scoreLoop f ps = Except.error e2 := by
  induction ps with
  | nil => cases hp
  | cons q qs ih =>
    rcases List.mem_cons.1 hp with rfl | hmem
    · exact ⟨e, by simp [scoreLoop, hf]⟩
    · cases hq : f q with
      | error e3 => exact ⟨e3, by simp [scoreLoop, hq]⟩
      | ok v =>
        obtain ⟨e4, he4⟩ := ih hmem
        exact ⟨e4, by simp [scoreLoop, hq, he4]⟩

/-- A loop body that fails on the pair `(0, 1)` and succeeds elsewhere. -/
def failingScorer : Nat × Nat → Except String ℚ :=
  fun p => if p = (0, 1) then Except.error "boom" else Except.ok 0

/-- Counterexample to C3 as stated: with a body failing on the first
pair only, the loop aborts with that error — the failing pair is not
skipped and the remaining scorable pair produces no partial result. -/
theorem claim3_counterexample :
    scoreLoop failingScorer [(0, 1), (1, 2)] = Except.error "boom" ∧
    failingScorer (1, 2) = Except.ok 0 ∧
    ∀ rows : List ℚ, scoreLoop failingScorer [(0, 1), (1, 2)] ≠ Except.ok rows := by
  refine ⟨rfl, rfl, ?_⟩
  intro rows h
  cases h

/-- Witness for the amended C3 at a concrete failing body. -/
theorem claim3_witness :
    ∃ e2, scoreLoop failingScorer [(0, 1), (1, 2)] = Except.error e2 :=
  claim3_amended failingScorer [(0, 1), (1, 2)] (0, 1) (by decide) "boom" rfl

/-! ### Claim C7: shape of the candidate pairs produced by blocking -/

theorem pairsOf_mem {l : List Nat} {a b : Nat} (h : (a, b) ∈ pairsOf l) :
    a ∈ l ∧ b ∈ l := by
  induction l with
  | nil => cases h
  | cons x xs ih =>
    simp only [pairsOf, List.mem_append, List.mem_map] at h
    rcases h with ⟨y, hy, he⟩ | h2
    · rw [Prod.ext_iff] at he
      obtain ⟨h1, h2⟩ := he
      subst h1; subst h2
      exact ⟨List.mem_cons_self _ _, List.mem_cons_of_mem _ hy⟩
    · have h3 := ih h2
      exact ⟨List.mem_cons_of_mem _ h3.1, List.mem_cons_of_mem _ h3.2⟩

theorem pairsOf_lt {l : List Nat} (hs : l.Pairwise (· < ·)) {a b : Nat}
    (h : (a, b) ∈ pairsOf l) : a < b := by
  induction l with
  | nil => cases h
  | cons x xs ih =>
    simp only [pairsOf, List.mem_append, List.mem_map] at h
    obtain ⟨hx, hxs⟩ := List.pairwise_cons.1 hs
    rcases h with ⟨y, hy, he⟩ | h2
    · rw [Prod.ext_iff] at he
      obtain ⟨h1, h2⟩ := he
      subst h1; subst h2
      exact hx _ hy
    · exact ih hxs h2

theorem pairsOf_complete {l : List Nat} {a b : Nat} (ha : a ∈ l) (hb : b ∈ l)
    (hs : l.Pairwise (· < ·)) (hab : a < b) : (a, b) ∈ pairsOf l := by
  induction l with
  | nil => cases ha
  | cons x xs ih =>
    obtain ⟨hx, hxs⟩ := List.pairwise_cons.1 hs
    simp only [pairsOf, List.mem_append, List.mem_map]
    rcases List.mem_cons.1 ha with rfl | ha2
    · rcases List.mem_cons.1 hb with rfl | hb2
      · omega
      · exact Or.inl ⟨b, hb2, rfl⟩
    · rcases List.mem_cons.1 hb with rfl | hb2
      · exact absurd (hx _ ha2) (by omega)
      · exact Or.inr (ih ha2 hb2 hxs)

theorem blockMembers_sorted (rs : List NormRow) (k : String) :
    (blockMembers rs k).Pairwise (· < ·) :=
  List.Pairwise.sublist (List.filter_sublist _) (List.pairwise_lt_range _)

theorem blockMembers_mem {rs : List NormRow} {k : String} {i : Nat}
    (h : i ∈ blockMembers rs k) : i < rs.length ∧ k ∈ blockKeys (rowAt rs i) := by
  have h2 := List.mem_filter.1 h
  refine ⟨List.mem_range.1 h2.1, ?_⟩
  simpa using h2.2

theorem blockMembers_complete {rs : List NormRow} {k : String} {i : Nat}
    (hi : i < rs.length) (hk : k ∈ blockKeys (rowAt rs i)) : i ∈ blockMembers rs k := by
  apply List.mem_filter.2
  exact ⟨List.mem_range.2 hi, by simpa using hk⟩

theorem one_lt_length_of_two_mem {l : List Nat} {a b : Nat} (ha : a ∈ l) (hb : b ∈ l)
    (hab : a ≠ b) : 1 < l.length := by
  cases l with
  | nil => cases ha
  | cons x xs =>
    cases xs with
    | nil => simp at ha hb; omega
    | cons y ys => simp

theorem candidateList_mem {rs : List NormRow} {a b : Nat}
    (h : (a, b) ∈ candidateList rs) :
    ∃ k, (a, b) ∈ pairsOf (blockMembers rs k) := by
  have h1 := List.mem_dedup.1 h
  obtain ⟨lp, hlp, hmem⟩ := List.mem_flatten.1 h1
  obtain ⟨k, hk, hfk⟩ := List.mem_map.1 hlp
  subst hfk
  by_cases hlen : 1 < (blockMembers rs k).length
  · rw [if_pos hlen] at hmem
    exact ⟨k, hmem⟩
  · rw [if_neg hlen] at hmem
    cases hmem

theorem mem_allBlockKeys {rs : List NormRow} {i : Nat} {k : String}
    (hi : i < rs.length) (hk : k ∈ blockKeys (rowAt rs i)) : k ∈ allBlockKeys rs := by
  apply List.mem_dedup.2
  apply List.mem_flatten.2
  refine ⟨blockKeys (rowAt rs i), List.mem_map.2 ⟨rowAt rs i, ?_, rfl⟩, hk⟩
  rw [rowAt, List.getD_eq_getElem _ _ hi]
  exact List.getElem_mem _

theorem candidateList_complete {rs : List NormRow} {a b : Nat} {k : String}
    (ha : a < rs.length) (hb : b < rs.length) (hab : a < b)
    (hka : k ∈ blockKeys (rowAt rs a)) (hkb : k ∈ blockKeys (rowAt rs b)) :
    (a, b) ∈ candidateList rs := by
  have hma := blockMembers_complete ha hka
  have hmb := blockMembers_complete hb hkb
  apply List.mem_dedup.2
  apply List.mem_flatten.2
  refine ⟨_, List.mem_map.2 ⟨k, mem_allBlockKeys ha hka, rfl⟩, ?_⟩
  rw [if_pos (one_lt_length_of_two_mem hma hmb (by omega))]
  exact pairsOf_complete hma hmb (blockMembers_sorted rs k) hab

/-- C7: every candidate pair `(a, b)` produced by blocking satisfies
`a < b` (canonical ordering) with both indices in range, and the two
records share at least one blocking key (each key non-empty by
construction); and a record whose key value for a block family is
empty contributes no key of that family, so it never joins such a
block. -/
theorem claim7_blocking (rs : List NormRow) :
    (∀ a b : Nat, (a, b) ∈ candidateList rs →
      a < b ∧ b < rs.length ∧
      ∃ k, k ∈ blockKeys (rowAt rs a) ∧ k ∈ blockKeys (rowAt rs b)) ∧
    (∀ r : NormRow, r.npi_norm = "" → ∀ v, ("NPI::" ++ v) ∉ blockKeys r) ∧
    (∀ r : NormRow, r.license_norm = "" ∨ r.license_state_norm = "" →
      ∀ s l, ("LIC::" ++ s ++ "::" ++ l) ∉ blockKeys r) ∧
    (∀ r : NormRow, r.last_pref = "" → ∀ v, ("LNP::" ++ v) ∉ blockKeys r) ∧
    (∀ r : NormRow, r.phone_last4 = "" → ∀ v, ("PH4::" ++ v) ∉ blockKeys r) ∧
    (∀ r : NormRow, r.tax_norm = "" → ∀ v, ("TAX::" ++ v) ∉ blockKeys r) := by
  refine ⟨?_, ?_, ?_, ?_, ?_, ?_⟩
  · intro a b hab
    obtain ⟨k, hk⟩ := candidateList_mem hab
    have hmem := pairsOf_mem hk
    have hlt := pairsOf_lt (blockMembers_sorted rs k) hk
    have hma := blockMembers_mem hmem.1
    have hmb := blockMembers_mem hmem.2
    exact ⟨hlt, hmb.1, k, hma.2, hmb.2⟩
  · intro r hr v hv
    simp [blockKeys, hr] at hv
    rcases hv with ⟨-, h⟩ | ⟨-, h⟩ | ⟨-, h⟩ | ⟨-, h⟩ <;>
      · have hh := congrArg (fun s : String => s.data.head?) h
        simp at hh
  · intro r hr s l hv
    have hcond : ¬ (r.license_norm ≠ "" ∧ r.license_state_norm ≠ "" ∧
        r.license_norm ≠ "nan") := by
      rcases hr with h | h <;> simp [h]
    simp [blockKeys, hcond] at hv
    rcases hv with ⟨-, h⟩ | ⟨-, h⟩ | ⟨-, h⟩ | ⟨-, h⟩
    · have hh : (some 'L' : Option Char) = some 'N' :=
        congrArg (fun s : String => s.data.head?) h
      simp at hh
    · have hh : (some 'I' : Option Char) = some 'N' :=
        congrArg (fun s : String => s.data[1]?) h
      simp at hh
    · have hh : (some 'L' : Option Char) = some 'P' :=
        congrArg (fun s : String => s.data.head?) h
      simp at hh
    · have hh : (some 'L' : Option Char) = some 'T' :=
        congrArg (fun s : String => s.data.head?) h
      simp at hh
  · intro r hr v hv
    simp [blockKeys, hr] at hv
    rcases hv with ⟨-, h⟩ | ⟨-, h⟩ | ⟨-, h⟩ | ⟨-, h⟩
    · have hh : (some 'N' : Option Char) = some 'P' :=
        congrArg (fun s : String => s.data[1]?) h
      simp at hh
    · have hh : (some 'N' : Option Char) = some 'I' :=
        congrArg (fun s : String => s.data[1]?) h
      simp at hh
    · have hh : (some 'L' : Option Char) = some 'P' :=
        congrArg (fun s : String => s.data.head?) h
      simp at hh
    · have hh : (some 'L' : Option Char) = some 'T' :=
        congrArg (fun s : String => s.data.head?) h
      simp at hh
  · intro r hr v hv
    simp [blockKeys, hr] at hv
    rcases hv with ⟨-, h⟩ | ⟨-, h⟩ | ⟨-, h⟩ | ⟨-, h⟩ <;>
      · have hh := congrArg (fun s : String => s.data.head?) h
        simp at hh
  · intro r hr v hv
    simp [blockKeys, hr] at hv
    rcases hv with ⟨-, h⟩ | ⟨-, h⟩ | ⟨-, h⟩ | ⟨-, h⟩ <;>
      · have hh := congrArg (fun s : String => s.data.head?) h
        simp at hh

/-- A normalized row with every field empty. -/
def emptyNormRow : NormRow :=
  { provider_id := "", name_norm := "", npi_norm := "", license_norm := "",
    license_state_norm := "", phone_norm := "", phone_last4 := "", last_pref := "",
    tax_norm := "", addr_norm := "" }

/-- Witness for C7 at a concrete roster and a concrete empty-keyed row. -/
theorem claim7_witness :
    ((0 : Nat) < 1 ∧ 1 < ([c1RowA, c1RowB] : List NormRow).length ∧
      ∃ k, k ∈ blockKeys (rowAt [c1RowA, c1RowB] 0) ∧
        k ∈ blockKeys (rowAt [c1RowA, c1RowB] 1)) ∧
    ("NPI::" ++ "123") ∉ blockKeys emptyNormRow := by
  constructor
  · exact (claim7_blocking [c1RowA, c1RowB]).1 0 1 (by decide)
  · exact (claim7_blocking [c1RowA, c1RowB]).2.1 emptyNormRow rfl "123"

/-! ### Correctness of the union-find structure

The recursive `UF.find` of the source terminates because the parent
array is an acyclic forest; the development tracks that invariant
(`WF`) explicitly and shows that `findAux` with fuel `p.size` computes
the root, that path compression and `union` preserve the invariant,
and that the equivalence "same root after processing a pair list"
is exactly the equivalence closure of the pairs — in particular it is
independent of the processing order. -/

theorem parentOf_ge (p : Array Nat) {x : Nat} (h : p.size ≤ x) : parentOf p x = x := by
  rw [parentOf, Array.getD, dif_neg (by omega)]

theorem parentOf_setD_same (p : Array Nat) {v : Nat} (hv : v < p.size) (w : Nat) :
    parentOf (p.setD v w) v = w := by
  rw [parentOf, Array.setD, dif_pos hv, Array.getD,
    dif_pos (by simpa using hv)]
  exact Array.get_set_eq ..

theorem parentOf_setD_ne (p : Array Nat) {v y : Nat} (h : y ≠ v) (w : Nat) :
    parentOf (p.setD v w) y = parentOf p y := by
  rw [parentOf, parentOf, Array.setD]
  split
  · rw [Array.getD, Array.getD]
    by_cases hy : y < p.size
    · rw [dif_pos (by simpa using hy), dif_pos hy]
      exact Array.getElem_set_ne _ _ _ (by simpa using hy) (fun he => h he.symm)
    · rw [dif_neg (by simpa using hy), dif_neg hy]
  · rfl

/-- Bounded parent array: in-range entries stay in range. -/
def Bounded (p : Array Nat) : Prop := ∀ i, i < p.size → parentOf p i < p.size

/-- The parent chain from `x` eventually reaches a fixpoint. -/
def Stab (p : Array Nat) (x : Nat) : Prop :=
  ∃ k, parentOf p ((fun y => parentOf p y)^[k] x) = (fun y => parentOf p y)^[k] x

/-- Well-formed union-find state: bounded and every chain terminates. -/
def WF (p : Array Nat) : Prop := Bounded p ∧ ∀ x, Stab p x

theorem iter_lt {p : Array Nat} (hb : Bounded p) {x : Nat} (hx : x < p.size) :
    ∀ m, (fun y => parentOf p y)^[m] x < p.size := by
  intro m
  induction m with
  | zero => simpa using hx
  | succ k ih =>
    rw [Function.iterate_succ_apply']
    exact hb _ ih

theorem stab_dist_le {p : Array Nat} (hb : Bounded p) {x : Nat} (hx : x < p.size)
    (hs : Stab p x) : Nat.find hs ≤ p.size := by
  by_contra hgt
  push_neg at hgt
  have key : ∀ i j : Nat, i < j → j ≤ p.size →
      (fun y => parentOf p y)^[i] x = (fun y => parentOf p y)^[j] x → False := by
    intro i j hij hjle heq
    have hdfix := Nat.find_spec hs
    have per : ∀ t, (fun y => parentOf p y)^[i + t + (j - i)] x =
        (fun y => parentOf p y)^[i + t] x := by
      intro t
      have h1 : i + t + (j - i) = t + j := by omega
      have h2 : i + t = t + i := by omega
      rw [h1, h2, Function.iterate_add_apply, Function.iterate_add_apply, ← heq]
    have hstep := per (Nat.find hs - (j - i) - i)
    have harr1 : i + (Nat.find hs - (j - i) - i) = Nat.find hs - (j - i) := by omega
    have harr2 : Nat.find hs - (j - i) + (j - i) = Nat.find hs := by omega
    rw [harr1, harr2] at hstep
    have hfix2 : parentOf p ((fun y => parentOf p y)^[Nat.find hs - (j - i)] x) =
        (fun y => parentOf p y)^[Nat.find hs - (j - i)] x := by
      rw [← hstep]
      exact hdfix
    exact Nat.find_min hs (show Nat.find hs - (j - i) < Nat.find hs by omega) hfix2
  have hmap : ∀ m : Fin (p.size + 1), (fun y => parentOf p y)^[m.1] x < p.size :=
    fun m => iter_lt hb hx m.1
  obtain ⟨i, j, hij, hej⟩ := Fintype.exists_ne_map_eq_of_card_lt
    (fun m : Fin (p.size + 1) => (⟨(fun y => parentOf p y)^[m.1] x, hmap m⟩ : Fin p.size))
    (by simp)
  have hvals : (fun y => parentOf p y)^[i.1] x = (fun y => parentOf p y)^[j.1] x := by
    simpa [Fin.ext_iff] using hej
  rcases Nat.lt_or_ge i.1 j.1 with hlt | hge
  · exact key i.1 j.1 hlt (by omega) hvals
  · have hlt2 : j.1 < i.1 := by
      rcases Nat.lt_or_ge j.1 i.1 with h | h
      · exact h
      · exact absurd (Fin.ext (by omega)) hij
    exact key j.1 i.1 hlt2 (by omega) hvals.symm

theorem rootD_isFix {p : Array Nat} (hb : Bounded p) {x : Nat} (hs : Stab p x) :
    parentOf p (rootD p x) = rootD p x := by
  by_cases hx : x < p.size
  · have hd := stab_dist_le hb hx hs
    have hdfix := Nat.find_spec hs
    rw [rootD]
    have hsplit : p.size = (p.size - Nat.find hs) + Nat.find hs := by omega
    rw [hsplit, Function.iterate_add_apply, Function.iterate_fixed hdfix]
    exact hdfix
  · rw [rootD, Function.iterate_fixed (parentOf_ge p (by omega)), parentOf_ge p (by omega)]

theorem rootD_of_fix {p : Array Nat} {x : Nat} (h : parentOf p x = x) : rootD p x = x := by
  rw [rootD, Function.iterate_fixed h]

theorem rootD_parent {p : Array Nat} (hb : Bounded p) (hstab : ∀ y, Stab p y) (x : Nat) :
    rootD p (parentOf p x) = rootD p x := by
  rw [rootD, rootD, ← Function.iterate_succ_apply, Function.iterate_succ_apply']
  exact rootD_isFix hb (hstab x)

theorem rootD_lt {p : Array Nat} (hb : Bounded p) {x : Nat} (hx : x < p.size) :
    rootD p x < p.size := iter_lt hb hx p.size

theorem rootD_ge {p : Array Nat} {x : Nat} (hx : p.size ≤ x) : rootD p x = x :=
  rootD_of_fix (parentOf_ge p hx)

theorem rootD_ne_self {p : Array Nat} (hb : Bounded p) (hstab : ∀ y, Stab p y) {x : Nat}
    (h : parentOf p x ≠ x) : rootD p x ≠ x := by
  intro he
  exact h (by conv_lhs => rw [← he, rootD_isFix hb (hstab x), he])

theorem rootD_eq_of_reach {q : Array Nat} (hb : Bounded q) {y r : Nat} (k : Nat)
    (hreach : (fun z => parentOf q z)^[k] y = r) (hfix : parentOf q r = r) :
    rootD q y = r := by
  have hs : Stab q y := ⟨k, by rw [hreach]; exact hfix⟩
  have hroot := rootD_isFix hb hs
  rcases le_or_lt k q.size with hk | hk
  · rw [rootD]
    have hsplit : q.size = (q.size - k) + k := by omega
    rw [hsplit, Function.iterate_add_apply, hreach, Function.iterate_fixed hfix]
  · have : (fun z => parentOf q z)^[k] y = rootD q y := by
      have hsplit : k = (k - q.size) + q.size := by omega
      rw [hsplit, Function.iterate_add_apply]
      exact Function.iterate_fixed hroot _
    rw [← hreach, this]

theorem dist_parent_lt {p : Array Nat} (hstab : ∀ y, Stab p y) {y : Nat}
    (hfy : parentOf p y ≠ y) :
    Nat.find (hstab (parentOf p y)) < Nat.find (hstab y) := by
  have hd0 : Nat.find (hstab y) ≠ 0 := by
    intro h0
    have hsp := Nat.find_spec (hstab y)
    rw [h0] at hsp
    simp at hsp
    exact hfy hsp
  have hfix := Nat.find_spec (hstab y)
  have hrw : (fun z => parentOf p z)^[Nat.find (hstab y)] y =
      (fun z => parentOf p z)^[Nat.find (hstab y) - 1] (parentOf p y) := by
    conv_lhs => rw [show Nat.find (hstab y) = (Nat.find (hstab y) - 1) + 1 by omega]
    rw [Function.iterate_succ_apply]
  rw [hrw] at hfix
  have hle : Nat.find (hstab (parentOf p y)) ≤ Nat.find (hstab y) - 1 :=
    Nat.find_le hfix
  omega

theorem setD_compress {p : Array Nat} (hwf : WF p) {v : Nat} (hv : v < p.size)
    (hnfix : parentOf p v ≠ v) :
    WF (p.setD v (rootD p v)) ∧ (p.setD v (rootD p v)).size = p.size ∧
    (∀ y, rootD (p.setD v (rootD p v)) y = rootD p y) := by
  obtain ⟨hb, hstab⟩ := hwf
  have hsize : (p.setD v (rootD p v)).size = p.size := Array.size_setD ..
  have hrfix : parentOf p (rootD p v) = rootD p v := rootD_isFix hb (hstab v)
  have hrlt : rootD p v < p.size := rootD_lt hb hv
  have hpar_v : parentOf (p.setD v (rootD p v)) v = rootD p v := parentOf_setD_same p hv _
  have hpar_ne : ∀ y, y ≠ v → parentOf (p.setD v (rootD p v)) y = parentOf p y :=
    fun y h => parentOf_setD_ne p h _
  have hfixq : ∀ z, parentOf p z = z → parentOf (p.setD v (rootD p v)) z = z := by
    intro z hz
    have hzv : z ≠ v := fun he => hnfix (he ▸ hz)
    rw [hpar_ne z hzv]
    exact hz
  have hbq : Bounded (p.setD v (rootD p v)) := by
    intro i hi
    rw [hsize] at hi
    by_cases hiv : i = v
    · subst hiv
      rw [hpar_v, hsize]
      exact hrlt
    · rw [hpar_ne i hiv, hsize]
      exact hb i hi
  have hreach : ∀ d y, Nat.find (hstab y) = d →
      ∃ k, (fun z => parentOf (p.setD v (rootD p v)) z)^[k] y = rootD p y := by
    intro d
    induction d using Nat.strong_induction_on with
    | _ d ih =>
      intro y hdy
      by_cases hfy : parentOf p y = y
      · exact ⟨0, (rootD_of_fix hfy).symm⟩
      · by_cases hyv : y = v
        · subst hyv
          exact ⟨1, by simpa using hpar_v⟩
        · have hstep : parentOf (p.setD v (rootD p v)) y = parentOf p y := hpar_ne y hyv
          have hdlt : Nat.find (hstab (parentOf p y)) < d := hdy ▸ dist_parent_lt hstab hfy
          obtain ⟨k, hk⟩ := ih _ hdlt (parentOf p y) rfl
          refine ⟨k + 1, ?_⟩
          rw [Function.iterate_succ_apply]
          simp only [hstep]
          rw [hk]
          exact rootD_parent hb hstab y
  refine ⟨⟨hbq, ?_⟩, hsize, ?_⟩
  · intro y
    obtain ⟨k, hk⟩ := hreach _ y rfl
    exact ⟨k, by rw [hk]; exact hfixq _ (rootD_isFix hb (hstab y))⟩
  · intro y
    obtain ⟨k, hk⟩ := hreach _ y rfl
    exact rootD_eq_of_reach hbq k hk (hfixq _ (rootD_isFix hb (hstab y)))

theorem setD_link {p : Array Nat} (hwf : WF p) {r1 r2 : Nat}
    (h1 : parentOf p r1 = r1) (h2 : parentOf p r2 = r2) (hne : r1 ≠ r2)
    (hr1 : r1 < p.size) (hr2 : r2 < p.size) :
    WF (p.setD r2 r1) ∧ (p.setD r2 r1).size = p.size ∧
    (∀ y, rootD (p.setD r2 r1) y = if rootD p y = r2 then r1 else rootD p y) := by
  obtain ⟨hb, hstab⟩ := hwf
  have hsize : (p.setD r2 r1).size = p.size := Array.size_setD ..
  have hpar_r2 : parentOf (p.setD r2 r1) r2 = r1 := parentOf_setD_same p hr2 _
  have hpar_ne : ∀ y, y ≠ r2 → parentOf (p.setD r2 r1) y = parentOf p y :=
    fun y h => parentOf_setD_ne p h _
  have hfix_r1 : parentOf (p.setD r2 r1) r1 = r1 := by
    rw [hpar_ne r1 hne]
    exact h1
  have htfix : ∀ y, parentOf (p.setD r2 r1)
      (if rootD p y = r2 then r1 else rootD p y) =
      (if rootD p y = r2 then r1 else rootD p y) := by
    intro y
    by_cases hc : rootD p y = r2
    · rw [if_pos hc]
      exact hfix_r1
    · rw [if_neg hc, hpar_ne _ hc]
      exact rootD_isFix hb (hstab y)
  have hbq : Bounded (p.setD r2 r1) := by
    intro i hi
    rw [hsize] at hi
    by_cases hir : i = r2
    · subst hir
      rw [hpar_r2, hsize]
      exact hr1
    · rw [hpar_ne i hir, hsize]
      exact hb i hi
  have hreach : ∀ d y, Nat.find (hstab y) = d →
      ∃ k, (fun z => parentOf (p.setD r2 r1) z)^[k] y =
        (if rootD p y = r2 then r1 else rootD p y) := by
    intro d
    induction d using Nat.strong_induction_on with
    | _ d ih =>
      intro y hdy
      by_cases hfy : parentOf p y = y
      · have hry : rootD p y = y := rootD_of_fix hfy
        by_cases hyr : y = r2
        · subst hyr
          rw [hry, if_pos rfl]
          exact ⟨1, by simpa using hpar_r2⟩
        · rw [hry, if_neg hyr]
          exact ⟨0, rfl⟩
      · have hyr : y ≠ r2 := fun he => hfy (he ▸ h2)
        have hstep : parentOf (p.setD r2 r1) y = parentOf p y := hpar_ne y hyr
        have hdlt : Nat.find (hstab (parentOf p y)) < d := hdy ▸ dist_parent_lt hstab hfy
        obtain ⟨k, hk⟩ := ih _ hdlt (parentOf p y) rfl
        refine ⟨k + 1, ?_⟩
        rw [Function.iterate_succ_apply]
        simp only [hstep]
        rw [hk, rootD_parent hb hstab y]
  refine ⟨⟨hbq, ?_⟩, hsize, ?_⟩
  · intro y
    obtain ⟨k, hk⟩ := hreach _ y rfl
    exact ⟨k, by rw [hk]; exact htfix y⟩
  · intro y
    obtain ⟨k, hk⟩ := hreach _ y rfl
    exact rootD_eq_of_reach hbq k hk (htfix y)


theorem rootD_root {p : Array Nat} (hb : Bounded p) (hstab : ∀ y, Stab p y) (x : Nat) :
    rootD p (rootD p x) = rootD p x :=
  rootD_of_fix (rootD_isFix hb (hstab x))

theorem findAux_spec : ∀ (fuel : Nat) (p : Array Nat) (hwf : WF p) (x : Nat),
    x < p.size → Nat.find (hwf.2 x) ≤ fuel →
    (findAux fuel p x).2 = rootD p x ∧ WF (findAux fuel p x).1 ∧
    (findAux fuel p x).1.size = p.size ∧
    (∀ y, rootD (findAux fuel p x).1 y = rootD p y) := by
  intro fuel
  induction fuel with
  | zero =>
    intro p hwf x hx hfuel
    have h0 : Nat.find (hwf.2 x) = 0 := by omega
    have hfix : parentOf p x = x := by
      have hsp := Nat.find_spec (hwf.2 x)
      rw [h0] at hsp
      simpa using hsp
    exact ⟨(rootD_of_fix hfix).symm, hwf, rfl, fun y => rfl⟩
  | succ f ih =>
    intro p hwf x hx hfuel
    by_cases hfix : parentOf p x = x
    · rw [findAux, if_pos hfix]
      exact ⟨(rootD_of_fix hfix).symm, hwf, rfl, fun y => rfl⟩
    · have hpx : parentOf p x < p.size := hwf.1 x hx
      have hdlt : Nat.find (hwf.2 (parentOf p x)) ≤ f := by
        have := dist_parent_lt hwf.2 hfix
        omega
      obtain ⟨hval, hwf1, hsize1, hroots1⟩ := ih p hwf (parentOf p x) hpx hdlt
      have hroot_ne : parentOf (findAux f p (parentOf p x)).1 x ≠ x := by
        intro he
        have h1 : rootD (findAux f p (parentOf p x)).1 x = x := rootD_of_fix he
        rw [hroots1 x] at h1
        exact rootD_ne_self hwf.1 hwf.2 hfix h1
      have hxlt : x < (findAux f p (parentOf p x)).1.size := by rw [hsize1]; exact hx
      have hr : (findAux f p (parentOf p x)).2 = rootD (findAux f p (parentOf p x)).1 x := by
        rw [hval, hroots1 x, rootD_parent hwf.1 hwf.2]
      obtain ⟨hwfq, hsizeq, hrootsq⟩ := setD_compress hwf1 hxlt hroot_ne
      rw [findAux, if_neg hfix]
      refine ⟨?_, ?_, ?_, ?_⟩
      · simp only []
        rw [hval, rootD_parent hwf.1 hwf.2]
      · simp only []
        rw [hr]
        exact hwfq
      · simp only []
        rw [hr]
        rw [hsizeq, hsize1]
      · intro y
        simp only []
        rw [hr, hrootsq y, hroots1 y]

theorem ufFind_spec (p : Array Nat) (hwf : WF p) (x : Nat) (hx : x < p.size) :
    (ufFind p x).2 = rootD p x ∧ WF (ufFind p x).1 ∧
    (ufFind p x).1.size = p.size ∧
    (∀ y, rootD (ufFind p x).1 y = rootD p y) :=
  findAux_spec p.size p hwf x hx (stab_dist_le hwf.1 hx (hwf.2 x))

theorem ufUnion_spec (p : Array Nat) (hwf : WF p) (a b : Nat)
    (ha : a < p.size) (hb : b < p.size) :
    WF (ufUnion p a b) ∧ (ufUnion p a b).size = p.size ∧
    ∀ y, rootD (ufUnion p a b) y =
      if rootD p a ≠ rootD p b ∧ rootD p y = rootD p b then rootD p a
      else rootD p y := by
  obtain ⟨hva, hwa, hsa, hra⟩ := ufFind_spec p hwf a ha
  have hb1 : b < (ufFind p a).1.size := by rw [hsa]; exact hb
  obtain ⟨hvb, hwb, hsb, hrb⟩ := ufFind_spec (ufFind p a).1 hwa b hb1
  rw [ufUnion]
  by_cases hne : (ufFind p a).2 ≠ (ufFind (ufFind p a).1 b).2
  · rw [if_pos hne]
    have hner : rootD p a ≠ rootD p b := by
      rw [hva] at hne
      rw [hvb, hra b] at hne
      exact hne
    have hfixa : parentOf (ufFind (ufFind p a).1 b).1 (rootD p a) = rootD p a := by
      have h1 : rootD (ufFind (ufFind p a).1 b).1 (rootD p a) = rootD p a := by
        rw [hrb, hra, rootD_root hwf.1 hwf.2]
      rw [← h1]
      exact rootD_isFix hwb.1 (hwb.2 _)
    have hfixb : parentOf (ufFind (ufFind p a).1 b).1 (rootD p b) = rootD p b := by
      have h1 : rootD (ufFind (ufFind p a).1 b).1 (rootD p b) = rootD p b := by
        rw [hrb, hra, rootD_root hwf.1 hwf.2]
      rw [← h1]
      exact rootD_isFix hwb.1 (hwb.2 _)
    have hralt : rootD p a < p.size := rootD_lt hwf.1 ha
    have hrblt : rootD p b < p.size := rootD_lt hwf.1 hb
    have hra2 : (ufFind p a).2 = rootD p a := hva
    have hrb2 : (ufFind (ufFind p a).1 b).2 = rootD p b := by rw [hvb, hra b]
    rw [hra2, hrb2]
    have hsz2 : (ufFind (ufFind p a).1 b).1.size = p.size := by rw [hsb, hsa]
    obtain ⟨hwq, hszq, hrq⟩ := setD_link hwb hfixa hfixb hner
      (by rw [hsz2]; exact hralt) (by rw [hsz2]; exact hrblt)
    refine ⟨hwq, by rw [hszq, hsz2], ?_⟩
    intro y
    rw [hrq y, hrb y, hra y]
    by_cases hc : rootD p y = rootD p b
    · rw [if_pos hc, if_pos ⟨hner, hc⟩]
    · rw [if_neg hc, if_neg (fun hcc => hc hcc.2)]
  · rw [if_neg hne]
    push_neg at hne
    have heq : rootD p a = rootD p b := by
      rw [hva] at hne
      rw [hvb, hra b] at hne
      exact hne
    refine ⟨hwb, by rw [hsb, hsa], ?_⟩
    intro y
    rw [hrb y, hra y]
    rw [if_neg (fun hcc => hcc.1 heq)]

theorem eqvGen_bind {α : Type} {r s : α → α → Prop}
    (h : ∀ x y, r x y → Relation.EqvGen s x y) :
    ∀ {x y}, Relation.EqvGen r x y → Relation.EqvGen s x y := by
  intro x y hxy
  induction hxy with
  | rel a b hab => exact h a b hab
  | refl a => exact Relation.EqvGen.refl a
  | symm a b _ ih => exact Relation.EqvGen.symm a b ih
  | trans a b c _ _ ih1 ih2 => exact Relation.EqvGen.trans a b c ih1 ih2

theorem ufUnion_sameRoot (p : Array Nat) (hwf : WF p) (a b : Nat)
    (ha : a < p.size) (hb : b < p.size) (x y : Nat) :
    rootD (ufUnion p a b) x = rootD (ufUnion p a b) y ↔
      (rootD p x = rootD p y ∨ (rootD p x = rootD p a ∧ rootD p y = rootD p b) ∨
       (rootD p x = rootD p b ∧ rootD p y = rootD p a)) := by
  obtain ⟨-, -, hroots⟩ := ufUnion_spec p hwf a b ha hb
  rw [hroots x, hroots y]
  by_cases hab : rootD p a = rootD p b
  · rw [if_neg (fun hc => hc.1 hab), if_neg (fun hc => hc.1 hab)]
    constructor
    · intro h
      exact Or.inl h
    · intro h
      rcases h with h | ⟨h1, h2⟩ | ⟨h1, h2⟩
      · exact h
      · rw [h1, h2, hab]
      · rw [h1, h2, hab]
  · by_cases hx : rootD p x = rootD p b
    · rw [if_pos ⟨hab, hx⟩]
      by_cases hy : rootD p y = rootD p b
      · rw [if_pos ⟨hab, hy⟩]
        simp [hx, hy]
      · rw [if_neg (fun hc => hy hc.2)]
        constructor
        · intro h
          exact Or.inr (Or.inr ⟨hx, h.symm⟩)
        · intro h
          rcases h with h | ⟨h1, h2⟩ | ⟨h1, h2⟩
          · exact absurd (hx ▸ h.symm) hy
          · exact absurd h2 hy
          · exact h2.symm
    · rw [if_neg (fun hc => hx hc.2)]
      by_cases hy : rootD p y = rootD p b
      · rw [if_pos ⟨hab, hy⟩]
        constructor
        · intro h
          exact Or.inr (Or.inl ⟨h, hy⟩)
        · intro h
          rcases h with h | ⟨h1, h2⟩ | ⟨h1, h2⟩
          · exact absurd (h ▸ hy) hx
          · exact h1
          · exact absurd h1 hx
      · rw [if_neg (fun hc => hy hc.2)]
        constructor
        · intro h
          exact Or.inl h
        · intro h
          rcases h with h | ⟨h1, h2⟩ | ⟨h1, h2⟩
          · exact h
          · exact absurd h2 hy
          · exact absurd h1 hx

theorem processPairs_spec (l : List (Nat × Nat)) :
    ∀ (p : Array Nat), WF p → (∀ pr ∈ l, pr.1 < p.size ∧ pr.2 < p.size) →
    WF (processPairs p l) ∧ (processPairs p l).size = p.size ∧
    ∀ x y, (rootD (processPairs p l) x = rootD (processPairs p l) y ↔
      Relation.EqvGen (fun u v => rootD p u = rootD p v ∨ (u, v) ∈ l) x y) := by
  induction l with
  | nil =>
    intro p hwf _
    refine ⟨hwf, rfl, fun x y => ?_⟩
    constructor
    · intro h
      exact Relation.EqvGen.rel x y (Or.inl h)
    · intro h
      induction h with
      | rel a b hab =>
        rcases hab with h | h
        · exact h
        · cases h
      | refl a => rfl
      | symm a b _ ih => exact ih.symm
      | trans a b c _ _ ih1 ih2 => exact ih1.trans ih2
  | cons pr t ih =>
    intro p hwf hl
    have hpr := hl pr (List.mem_cons_self _ _)
    have hq := ufUnion_spec p hwf pr.1 pr.2 hpr.1 hpr.2
    obtain ⟨hwfq, hsizeq, -⟩ := hq
    have hlt : ∀ pr2 ∈ t, pr2.1 < (ufUnion p pr.1 pr.2).size ∧
        pr2.2 < (ufUnion p pr.1 pr.2).size := by
      intro pr2 h2
      rw [hsizeq]
      exact hl pr2 (List.mem_cons_of_mem _ h2)
    obtain ⟨hwfr, hsizer, hiffr⟩ := ih (ufUnion p pr.1 pr.2) hwfq hlt
    have hstep : processPairs p (pr :: t) = processPairs (ufUnion p pr.1 pr.2) t := rfl
    refine ⟨hstep ▸ hwfr, by rw [hstep, hsizer, hsizeq], fun x y => ?_⟩
    rw [hstep, hiffr x y]
    have hsr := ufUnion_sameRoot p hwf pr.1 pr.2 hpr.1 hpr.2
    constructor
    · refine eqvGen_bind ?_
      intro u v huv
      rcases huv with huv | huv
      · rw [hsr u v] at huv
        rcases huv with h | ⟨h1, h2⟩ | ⟨h1, h2⟩
        · exact Relation.EqvGen.rel u v (Or.inl h)
        · refine Relation.EqvGen.trans u pr.1 v (Relation.EqvGen.rel _ _ (Or.inl h1)) ?_
          refine Relation.EqvGen.trans pr.1 pr.2 v
            (Relation.EqvGen.rel _ _ (Or.inr (List.mem_cons_self _ _))) ?_
          exact Relation.EqvGen.symm _ _ (Relation.EqvGen.rel _ _ (Or.inl h2))
        · refine Relation.EqvGen.trans u pr.2 v (Relation.EqvGen.rel _ _ (Or.inl h1)) ?_
          refine Relation.EqvGen.trans pr.2 pr.1 v
            (Relation.EqvGen.symm _ _
              (Relation.EqvGen.rel _ _ (Or.inr (List.mem_cons_self _ _)))) ?_
          exact Relation.EqvGen.symm _ _ (Relation.EqvGen.rel _ _ (Or.inl h2))
      · exact Relation.EqvGen.rel u v (Or.inr (List.mem_cons_of_mem _ huv))
    · refine eqvGen_bind ?_
      intro u v huv
      rcases huv with huv | huv
      · refine Relation.EqvGen.rel u v (Or.inl ?_)
        rw [hsr u v]
        exact Or.inl huv
      · rcases List.mem_cons.1 huv with he | hmem
        · have h1 : u = pr.1 := by rw [← he]
          have h2 : v = pr.2 := by rw [← he]
          subst h1
          subst h2
          refine Relation.EqvGen.rel _ _ (Or.inl ?_)
          rw [hsr pr.1 pr.2]
          by_cases hab : rootD p pr.1 = rootD p pr.2
          · exact Or.inl hab
          · exact Or.inr (Or.inl ⟨rfl, rfl⟩)
        · exact Relation.EqvGen.rel u v (Or.inr hmem)

theorem parentOf_init (n x : Nat) : parentOf (ufInit n) x = x := by
  rw [ufInit, parentOf, Array.getD]
  split
  · exact Array.getElem_range _
  · rfl

theorem rootD_init (n x : Nat) : rootD (ufInit n) x = x :=
  rootD_of_fix (parentOf_init n x)

theorem ufInit_WF (n : Nat) : WF (ufInit n) := by
  constructor
  · intro i hi
    rw [parentOf_init]
    simpa [ufInit] using hi
  · intro x
    exact ⟨0, by simpa using parentOf_init n x⟩

theorem ufInit_size (n : Nat) : (ufInit n).size = n := by simp [ufInit]

/-- The equivalence computed by the union loop started from the
identity state is exactly the equivalence closure of the processed
pair list. -/
theorem processPairs_init_sameRoot {n : Nat} {l : List (Nat × Nat)}
    (hl : ∀ pr ∈ l, pr.1 < n ∧ pr.2 < n) (x y : Nat) :
    rootD (processPairs (ufInit n) l) x = rootD (processPairs (ufInit n) l) y ↔
      Relation.EqvGen (fun u v => u = v ∨ (u, v) ∈ l) x y := by
  have hl2 : ∀ pr ∈ l, pr.1 < (ufInit n).size ∧ pr.2 < (ufInit n).size := by
    intro pr hpr
    rw [ufInit_size]
    exact hl pr hpr
  obtain ⟨-, -, hiff⟩ := processPairs_spec l (ufInit n) (ufInit_WF n) hl2
  rw [hiff x y]
  constructor
  · refine eqvGen_bind ?_
    intro u v huv
    rcases huv with h | h
    · rw [rootD_init, rootD_init] at h
      exact Relation.EqvGen.rel u v (Or.inl h)
    · exact Relation.EqvGen.rel u v (Or.inr h)
  · refine eqvGen_bind ?_
    intro u v huv
    rcases huv with h | h
    · subst h
      exact Relation.EqvGen.refl u
    · exact Relation.EqvGen.rel u v (Or.inr h)

/-- The final partition does not depend on the order in which the
pairs are processed. -/
theorem processPairs_perm_sameRoot {n : Nat} {l l2 : List (Nat × Nat)}
    (hperm : l.Perm l2) (hl : ∀ pr ∈ l, pr.1 < n ∧ pr.2 < n) (x y : Nat) :
    (rootD (processPairs (ufInit n) l) x = rootD (processPairs (ufInit n) l) y ↔
     rootD (processPairs (ufInit n) l2) x = rootD (processPairs (ufInit n) l2) y) := by
  have hl2 : ∀ pr ∈ l2, pr.1 < n ∧ pr.2 < n := fun pr hpr => hl pr (hperm.mem_iff.2 hpr)
  rw [processPairs_init_sameRoot hl x y, processPairs_init_sameRoot hl2 x y]
  constructor
  · refine eqvGen_bind ?_
    intro u v huv
    rcases huv with h | h
    · exact Relation.EqvGen.rel u v (Or.inl h)
    · exact Relation.EqvGen.rel u v (Or.inr (hperm.mem_iff.1 h))
  · refine eqvGen_bind ?_
    intro u v huv
    rcases huv with h | h
    · exact Relation.EqvGen.rel u v (Or.inl h)
    · exact Relation.EqvGen.rel u v (Or.inr (hperm.mem_iff.2 h))

/-! ### Claims C5, C6, C10: clustering behaviour of the pipeline -/

theorem definitePairs_bounds (td tp : ℚ) (rs : List NormRow) :
    ∀ pr ∈ definitePairs td tp rs, pr.1 < rs.length ∧ pr.2 < rs.length := by
  rintro ⟨a, b⟩ hpr
  have hc : (a, b) ∈ candidateList rs := (List.mem_filter.1 hpr).1
  obtain ⟨k, hk⟩ := candidateList_mem hc
  have hmem := pairsOf_mem hk
  exact ⟨(blockMembers_mem hmem.1).1, (blockMembers_mem hmem.2).1⟩

/-- C5: clustering is transitive: if the pairs `(a, b)` and `(b, c)`
are both classified "definite", then `a` and `c` get the same
union-find root in the final cluster state, whether or not `(a, c)`
was ever a candidate pair. -/
theorem claim5_transitive (td tp : ℚ) (rs : List NormRow) (a b c : Nat)
    (h1 : (a, b) ∈ definitePairs td tp rs) (h2 : (b, c) ∈ definitePairs td tp rs) :
    rootD (clusterState td tp rs) a = rootD (clusterState td tp rs) c := by
  rw [clusterState,
    processPairs_init_sameRoot (definitePairs_bounds td tp rs) a c]
  exact Relation.EqvGen.trans a b c
    (Relation.EqvGen.rel _ _ (Or.inr h1)) (Relation.EqvGen.rel _ _ (Or.inr h2))

/-- A roster of three identical rows sharing one NPI. -/
def npiRow : NormRow :=
  { provider_id := "N", name_norm := "", npi_norm := "7", license_norm := "",
    license_state_norm := "", phone_norm := "", phone_last4 := "", last_pref := "",
    tax_norm := "", addr_norm := "" }

def npiRoster : List NormRow := [npiRow, npiRow, npiRow]

theorem npiRow_score : scorePair npiRow npiRow = 54/5 := by
  have hsig : signalsOf npiRow npiRow =
      { npi_eq := true, lic_eq := false, name_sim := 1, tok_ov := 1,
        ph4_eq := false, addr_ov := 1, tax_eq := false, npi_conflict := false } := by
    unfold signalsOf
    rw [seqRatio_self, token_overlap_self]
    simp [npiRow, token_overlap_self]
  rw [scorePair, hsig]
  norm_num [totalScore]

theorem npiRoster_definite : definitePairs 5 3 npiRoster = [(0, 1), (0, 2), (1, 2)] := by
  have hc : candidateList npiRoster = [(0, 1), (0, 2), (1, 2)] := by decide
  have hcls : ∀ a b : Nat, a < 3 → b < 3 →
      matchClass 5 3 (scorePair (rowAt npiRoster a) (rowAt npiRoster b)) = "definite" := by
    intro a b ha hb
    have hra : rowAt npiRoster a = npiRow := by
      interval_cases a <;> rfl
    have hrb : rowAt npiRoster b = npiRow := by
      interval_cases b <;> rfl
    rw [hra, hrb, npiRow_score]
    norm_num [matchClass]
  rw [definitePairs, hc]
  simp [List.filter, hcls 0 1 (by omega) (by omega), hcls 0 2 (by omega) (by omega),
    hcls 1 2 (by omega) (by omega)]

/-- Witness for C5 at the concrete three-row roster. -/
theorem claim5_witness :
    rootD (clusterState 5 3 npiRoster) 0 = rootD (clusterState 5 3 npiRoster) 2 :=
  claim5_transitive 5 3 npiRoster 0 1 2 (by simp [npiRoster_definite])
    (by simp [npiRoster_definite])

theorem totalScore_ge_eleven (s : Signals) (h1 : s.npi_eq = true) (h2 : s.lic_eq = true)
    (h3 : s.npi_conflict = false) (h4 : 0 ≤ s.name_sim) (h5 : 0 ≤ s.tok_ov)
    (h6 : 0 ≤ s.addr_ov) : 11 ≤ totalScore s := by
  unfold totalScore
  rw [h1, h2, h3]
  have b6 : (0 : ℚ) ≤ if s.ph4_eq then 1.5 else 0 := by split <;> norm_num
  have b7 : (0 : ℚ) ≤ if s.tax_eq then 0.6 else 0 := by split <;> norm_num
  have m1 : (0 : ℚ) ≤ s.name_sim * 3 := by positivity
  have m2 : (0 : ℚ) ≤ s.tok_ov * 1 := by positivity
  have m3 : (0 : ℚ) ≤ s.addr_ov * 0.8 := by positivity
  rw [if_neg (by simp : ¬ (false = true)), if_pos (rfl : (true = true)),
    if_pos (rfl : (true = true))]
  linarith

theorem mem_definitePairs {td tp : ℚ} {rs : List NormRow} {a b : Nat}
    (hcand : (a, b) ∈ candidateList rs)
    (hcls : matchClass td tp (scorePair (rowAt rs a) (rowAt rs b)) = "definite") :
    (a, b) ∈ definitePairs td tp rs := by
  apply List.mem_filter.2
  exact ⟨hcand, by simpa using hcls⟩

theorem sameCluster_of_definite {rs : List NormRow} {a b : Nat}
    (h : (a, b) ∈ definitePairs 5 3 rs) :
    rootD (clusterState 5 3 rs) a = rootD (clusterState 5 3 rs) b := by
  rw [clusterState, processPairs_init_sameRoot (definitePairs_bounds 5 3 rs) a b]
  exact Relation.EqvGen.rel _ _ (Or.inr h)

/-- C6: a candidate pair with equal non-empty NPIs and equal non-empty
license state and number scores at least 11.0 (6.0 + 5.0 and no
negative term applies), so at the default thresholds it is classified
"definite" and the two records get the same cluster root. -/
theorem claim6_npi_license (rs : List NormRow) (a b : Nat)
    (hcand : (a, b) ∈ candidateList rs)
    (hna : (rowAt rs a).npi_norm ≠ "") (hnb : (rowAt rs b).npi_norm ≠ "")
    (hneq : (rowAt rs a).npi_norm = (rowAt rs b).npi_norm)
    (hla : (rowAt rs a).license_norm ≠ "") (hlb : (rowAt rs b).license_norm ≠ "")
    (hsa : (rowAt rs a).license_state_norm ≠ "")
    (hsb : (rowAt rs b).license_state_norm ≠ "")
    (hse : (rowAt rs a).license_state_norm = (rowAt rs b).license_state_norm)
    (hle : (rowAt rs a).license_norm = (rowAt rs b).license_norm) :
    11 ≤ scorePair (rowAt rs a) (rowAt rs b) ∧
    matchClass 5 3 (scorePair (rowAt rs a) (rowAt rs b)) = "definite" ∧
    rootD (clusterState 5 3 rs) a = rootD (clusterState 5 3 rs) b := by
  have h1 : (signalsOf (rowAt rs a) (rowAt rs b)).npi_eq = true := by
    simp [signalsOf, hna, hnb, hneq]
  have h2 : (signalsOf (rowAt rs a) (rowAt rs b)).lic_eq = true := by
    simp [signalsOf, hla, hlb, hsa, hsb, hse, hle]
  have h3 : (signalsOf (rowAt rs a) (rowAt rs b)).npi_conflict = false := by
    simp [signalsOf, hneq]
  have hge : 11 ≤ scorePair (rowAt rs a) (rowAt rs b) :=
    totalScore_ge_eleven _ h1 h2 h3 (seqRatio_nonneg _ _) (token_overlap_nonneg _ _)
      (token_overlap_nonneg _ _)
  have hcls : matchClass 5 3 (scorePair (rowAt rs a) (rowAt rs b)) = "definite" := by
    rw [matchClass, if_pos (by linarith)]
  exact ⟨hge, hcls, sameCluster_of_definite (mem_definitePairs hcand hcls)⟩

/-- Two identical rows sharing NPI and license. -/
def licRow : NormRow :=
  { provider_id := "L", name_norm := "", npi_norm := "7", license_norm := "K1",
    license_state_norm := "CA", phone_norm := "", phone_last4 := "", last_pref := "",
    tax_norm := "", addr_norm := "" }

def licRoster : List NormRow := [licRow, licRow]

/-- Witness for C6 at a concrete roster. -/
theorem claim6_witness :
    11 ≤ scorePair (rowAt licRoster 0) (rowAt licRoster 1) ∧
    matchClass 5 3 (scorePair (rowAt licRoster 0) (rowAt licRoster 1)) = "definite" ∧
    rootD (clusterState 5 3 licRoster) 0 = rootD (clusterState 5 3 licRoster) 1 :=
  claim6_npi_license licRoster 0 1 (by decide) (by decide) (by decide) (by decide)
    (by decide) (by decide) (by decide) (by decide) (by decide) (by decide)

/-- C10 (amended): two records whose names and addresses are all empty
(similarity and both overlaps 1.0 on empty inputs) and whose only
shared non-empty field is the phone last-4 form a candidate pair via
the PH4 block, score exactly 6.3 (3.0 + 1.0 + 1.5 + 0.8), are
classified "definite" at the default thresholds, and get merged into
one cluster. -/
theorem claim10_empty_phone (rs : List NormRow) (a b : Nat)
    (ha : a < rs.length) (hb : b < rs.length) (hab : a < b)
    (hn1 : (rowAt rs a).name_norm = "") (hn2 : (rowAt rs b).name_norm = "")
    (had1 : (rowAt rs a).addr_norm = "") (had2 : (rowAt rs b).addr_norm = "")
    (hph : (rowAt rs a).phone_last4 = (rowAt rs b).phone_last4)
    (hphne : (rowAt rs a).phone_last4 ≠ "")
    (hnp1 : (rowAt rs a).npi_norm = "") (hnp2 : (rowAt rs b).npi_norm = "")
    (hl1 : (rowAt rs a).license_norm = "") (hl2 : (rowAt rs b).license_norm = "")
    (ht1 : (rowAt rs a).tax_norm = "") (ht2 : (rowAt rs b).tax_norm = "") :
    (a, b) ∈ candidateList rs ∧
    scorePair (rowAt rs a) (rowAt rs b) = 63/10 ∧
    matchClass 5 3 (scorePair (rowAt rs a) (rowAt rs b)) = "definite" ∧
    rootD (clusterState 5 3 rs) a = rootD (clusterState 5 3 rs) b := by
  have hkeya : ("PH4::" ++ (rowAt rs a).phone_last4) ∈ blockKeys (rowAt rs a) := by
    simp [blockKeys, hphne]
  have hkeyb : ("PH4::" ++ (rowAt rs a).phone_last4) ∈ blockKeys (rowAt rs b) := by
    have hbne : (rowAt rs b).phone_last4 ≠ "" := by rw [← hph]; exact hphne
    rw [hph]
    simp [blockKeys, hbne]
  have hcand := candidateList_complete ha hb hab hkeya hkeyb
  have hsig : signalsOf (rowAt rs a) (rowAt rs b) =
      { npi_eq := false, lic_eq := false, name_sim := 1, tok_ov := 1,
        ph4_eq := true, addr_ov := 1, tax_eq := false, npi_conflict := false } := by
    have hbne : (rowAt rs b).phone_last4 ≠ "" := by rw [← hph]; exact hphne
    unfold signalsOf
    rw [hn1, hn2, had1, had2, seqRatio_self, token_overlap_self]
    simp [hnp1, hl1, ht1, hph, hphne, hbne]
  have hsc : scorePair (rowAt rs a) (rowAt rs b) = 63/10 := by
    rw [scorePair, hsig]
    norm_num [totalScore]
  have hcls : matchClass 5 3 (scorePair (rowAt rs a) (rowAt rs b)) = "definite" := by
    rw [hsc]
    norm_num [matchClass]
  exact ⟨hcand, hsc, hcls, sameCluster_of_definite (mem_definitePairs hcand hcls)⟩

/-- Two rows that share only a phone number. -/
def phoneRow : NormRow :=
  { provider_id := "P", name_norm := "", npi_norm := "", license_norm := "",
    license_state_norm := "", phone_norm := "5551234", phone_last4 := "1234",
    last_pref := "", tax_norm := "", addr_norm := "" }

def phoneRoster : List NormRow := [phoneRow, phoneRow]

theorem phoneRow_score : scorePair phoneRow phoneRow = 63/10 := by
  have hsig : signalsOf phoneRow phoneRow =
      { npi_eq := false, lic_eq := false, name_sim := 1, tok_ov := 1,
        ph4_eq := true, addr_ov := 1, tax_eq := false, npi_conflict := false } := by
    unfold signalsOf
    rw [seqRatio_self, token_overlap_self]
    simp [phoneRow, token_overlap_self]
  rw [scorePair, hsig]
  norm_num [totalScore]

/-- Counterexample to C10 as stated: at a concrete pair of records
satisfying the claim's hypotheses, the score is not 7.3 (it is
6.3 = 3.0 + 1.0 + 1.5 + 0.8, the very sum listed in the claim). -/
theorem claim10_counterexample :
    (0, 1) ∈ candidateList phoneRoster ∧
    (rowAt phoneRoster 0).name_norm = "" ∧ (rowAt phoneRoster 1).name_norm = "" ∧
    (rowAt phoneRoster 0).addr_norm = "" ∧ (rowAt phoneRoster 1).addr_norm = "" ∧
    (rowAt phoneRoster 0).phone_last4 = (rowAt phoneRoster 1).phone_last4 ∧
    (rowAt phoneRoster 0).phone_last4 ≠ "" ∧
    scorePair (rowAt phoneRoster 0) (rowAt phoneRoster 1) ≠ 73/10 := by
  have h0 : rowAt phoneRoster 0 = phoneRow := rfl
  have h1 : rowAt phoneRoster 1 = phoneRow := rfl
  refine ⟨by decide, by decide, by decide, by decide, by decide, by decide, by decide, ?_⟩
  rw [h0, h1, phoneRow_score]
  norm_num

/-- Witness for the amended C10 at the concrete roster. -/
theorem claim10_witness :
    (0, 1) ∈ candidateList phoneRoster ∧
    scorePair (rowAt phoneRoster 0) (rowAt phoneRoster 1) = 63/10 ∧
    matchClass 5 3 (scorePair (rowAt phoneRoster 0) (rowAt phoneRoster 1)) = "definite" ∧
    rootD (clusterState 5 3 phoneRoster) 0 = rootD (clusterState 5 3 phoneRoster) 1 :=
  claim10_empty_phone phoneRoster 0 1 (by decide) (by decide) (by decide) (by decide)
    (by decide) (by decide) (by decide) (by decide) (by decide) (by decide)
    (by decide) (by decide) (by decide) (by decide) (by decide)

/-! ### Claim C4: canonical cluster ids -/

theorem clusterOf_congr {p1 p2 : Array Nat} {n : Nat}
    (h : ∀ x y, rootD p1 x = rootD p1 y ↔ rootD p2 x = rootD p2 y) (i : Nat) :
    clusterOf p1 n i = clusterOf p2 n i := by
  unfold clusterOf
  apply List.filter_congr
  intro j _
  exact decide_eq_decide.2 (h j i)

theorem canonicalId_congr {rs : List NormRow} {p1 p2 : Array Nat}
    (h : ∀ x y, rootD p1 x = rootD p1 y ↔ rootD p2 x = rootD p2 y) (i : Nat) :
    canonicalId rs p1 i = canonicalId rs p2 i := by
  unfold canonicalId
  rw [clusterOf_congr h i]

theorem mem_clusterOf_self {p : Array Nat} {n i : Nat} (hi : i < n) :
    i ∈ clusterOf p n i := by
  apply List.mem_filter.2
  exact ⟨List.mem_range.2 hi, by simp⟩

theorem strTrans : ∀ a b c : String, decide (a ≤ b) = true → decide (b ≤ c) = true →
    decide (a ≤ c) = true := by
  intro a b c h1 h2
  simp only [decide_eq_true_eq] at h1 h2 ⊢
  exact le_trans h1 h2

theorem strTotal : ∀ a b : String, (decide (a ≤ b) || decide (b ≤ a)) = true := by
  intro a b
  simp only [Bool.or_eq_true, decide_eq_true_eq]
  exact le_total a b

/-- `sorted(ids)[0]` is a member of the list and a lower bound for it. -/
theorem headD_mergeSort_min {l : List String} (hne : l ≠ []) :
    (l.mergeSort (fun a b => a ≤ b)).headD "" ∈ l ∧
    ∀ x ∈ l, (l.mergeSort (fun a b => a ≤ b)).headD "" ≤ x := by
  have hperm := List.mergeSort_perm l (fun a b => decide (a ≤ b))
  have hsorted := List.sorted_mergeSort strTrans strTotal l
  obtain ⟨h, t, hht⟩ : ∃ h t, l.mergeSort (fun a b => decide (a ≤ b)) = h :: t := by
    cases hms : l.mergeSort (fun a b => decide (a ≤ b)) with
    | nil => exact absurd ((hms ▸ hperm).symm.eq_nil) hne
    | cons h t => exact ⟨h, t, rfl⟩
  have hmem : h ∈ l := hperm.mem_iff.1 (hht ▸ List.mem_cons_self h t)
  constructor
  · rw [hht]
    simpa using hmem
  · intro x hx
    rw [hht]
    simp only [List.headD_cons]
    have hx2 : x ∈ h :: t := hht ▸ (hperm.symm.mem_iff.1 hx)
    rcases List.mem_cons.1 hx2 with rfl | hxt
    · exact le_refl x
    · have hp := (List.pairwise_cons.1 (hht ▸ hsorted)).1 x hxt
      simpa using hp

/-- C4: the `dedup_cluster_id` column is independent of the order in
which the definite pairs are processed by `union` (any permutation of
the definite-pair list yields the same assignment), each record in a
cluster of size greater than one receives the lexicographically
smallest `provider_id` of the cluster's members, and every singleton
cluster keeps its own `provider_id`. -/
theorem claim4_canonical (td tp : ℚ) (rs : List NormRow) (l : List (Nat × Nat))
    (hperm : l.Perm (definitePairs td tp rs)) :
    assignFromPairs rs l = assignIds td tp rs ∧
    (∀ i, i < rs.length →
      (1 < (clusterOf (clusterState td tp rs) rs.length i).length →
        canonicalId rs (clusterState td tp rs) i ∈
          (clusterOf (clusterState td tp rs) rs.length i).map
            (fun m => (rowAt rs m).provider_id) ∧
        ∀ m ∈ clusterOf (clusterState td tp rs) rs.length i,
          canonicalId rs (clusterState td tp rs) i ≤ (rowAt rs m).provider_id) ∧
      ((clusterOf (clusterState td tp rs) rs.length i).length = 1 →
        canonicalId rs (clusterState td tp rs) i = (rowAt rs i).provider_id)) := by
  have hbl : ∀ pr ∈ l, pr.1 < rs.length ∧ pr.2 < rs.length :=
    fun pr hpr => definitePairs_bounds td tp rs pr (hperm.mem_iff.1 hpr)
  have hiff : ∀ x y,
      rootD (processPairs (ufInit rs.length) l) x =
        rootD (processPairs (ufInit rs.length) l) y ↔
      rootD (clusterState td tp rs) x = rootD (clusterState td tp rs) y := by
    intro x y
    rw [clusterState]
    exact processPairs_perm_sameRoot hperm hbl x y
  refine ⟨?_, ?_⟩
  · unfold assignFromPairs assignIds
    unfold assignFromPairs
    apply List.map_congr_left
    intro i _
    rw [← clusterState]
    exact canonicalId_congr hiff i
  · intro i hi
    constructor
    · intro hlen
      have hne : (clusterOf (clusterState td tp rs) rs.length i).map
          (fun m => (rowAt rs m).provider_id) ≠ [] := by
        intro he
        have hlen0 := congrArg List.length he
        rw [List.length_map] at hlen0
        simp only [List.length_nil] at hlen0
        omega
      obtain ⟨hm, hle⟩ := headD_mergeSort_min hne
      have hcanon : canonicalId rs (clusterState td tp rs) i =
          (((clusterOf (clusterState td tp rs) rs.length i).map
            (fun m => (rowAt rs m).provider_id)).mergeSort
              (fun a b => a ≤ b)).headD "" := by
        unfold canonicalId
        rw [if_neg (by omega)]
      constructor
      · rw [hcanon]
        exact hm
      · intro m hmm
        rw [hcanon]
        exact hle _ (List.mem_map.2 ⟨m, hmm, rfl⟩)
    · intro hlen
      unfold canonicalId
      rw [if_pos hlen]

/-- Witness for C4: a reversed processing order of the three definite
pairs of the concrete roster yields the same assignment. -/
theorem claim4_witness :
    assignFromPairs npiRoster [(1, 2), (0, 2), (0, 1)] = assignIds 5 3 npiRoster ∧
    (∀ i, i < npiRoster.length →
      (1 < (clusterOf (clusterState 5 3 npiRoster) npiRoster.length i).length →
        canonicalId npiRoster (clusterState 5 3 npiRoster) i ∈
          (clusterOf (clusterState 5 3 npiRoster) npiRoster.length i).map
            (fun m => (rowAt npiRoster m).provider_id) ∧
        ∀ m ∈ clusterOf (clusterState 5 3 npiRoster) npiRoster.length i,
          canonicalId npiRoster (clusterState 5 3 npiRoster) i ≤
            (rowAt npiRoster m).provider_id) ∧
      ((clusterOf (clusterState 5 3 npiRoster) npiRoster.length i).length = 1 →
        canonicalId npiRoster (clusterState 5 3 npiRoster) i =
          (rowAt npiRoster i).provider_id)) :=
  claim4_canonical 5 3 npiRoster [(1, 2), (0, 2), (0, 1)]
    (by rw [npiRoster_definite]; decide)

/-! ### Claim C2: idempotence of `normalize_name`

`normalize_name` is NOT idempotent in general: a word character that
the `[^a-z0-9\s]` cleanup later rewrites (in the ASCII model, the
underscore) shields an adjacent honorific token from the
word-boundary match of the first pass and exposes it to a second pass
(`"_md"` normalizes to `"md"`, which normalizes to `""`).  On
underscore-free ASCII input idempotence does hold; the development
below characterizes the output shape (single-space-separated
non-honorific lowercase-alphanumeric tokens) and shows such strings
are fixpoints. -/

theorem flatten_runsAux : ∀ (l : List Char) (b : Bool) (cur : List Char),
    (runsAux b cur l).flatten = cur.reverse ++ l := by
  intro l
  induction l with
  | nil => intro b cur; simp [runsAux]
  | cons c cs ih =>
    intro b cur
    rw [runsAux]
    by_cases hc : isWordChar c = b
    · rw [if_pos hc, ih]
      simp
    · rw [if_neg hc]
      simp [ih]

theorem flatten_charRuns (l : List Char) : (charRuns l).flatten = l := by
  cases l with
  | nil => rfl
  | cons c cs => rw [charRuns, flatten_runsAux]; rfl

/-- A run consisting only of word characters. -/
def allWord (r : List Char) : Bool := r.all isWordChar

/-- A run consisting only of non-word characters. -/
def allNonWord (r : List Char) : Bool := r.all (fun c => !isWordChar c)

theorem runsAux_spec : ∀ (l : List Char) (b : Bool) (cur : List Char),
    cur ≠ [] → (∀ c ∈ cur, isWordChar c = b) →
    (∀ r ∈ runsAux b cur l, r ≠ [] ∧ (allWord r = true ∨ allNonWord r = true)) ∧
    List.Chain' (fun a c => allWord a ≠ allWord c) (runsAux b cur l) ∧
    (∀ r0, (runsAux b cur l).head? = some r0 → allWord r0 = b) := by
  intro l
  induction l with
  | nil =>
    intro b cur hne hall
    rw [runsAux]
    have hrev : ∀ c ∈ cur.reverse, isWordChar c = b := by
      intro c hc; exact hall c (List.mem_reverse.1 hc)
    have hrne : cur.reverse ≠ [] := by simpa using hne
    have hstat : allWord cur.reverse = b := by
      cases b with
      | true =>
        simp only [allWord, List.all_eq_true, List.mem_reverse]
        intro c hc
        exact hall c hc
      | false =>
        simp only [allWord, List.all_eq_true, List.mem_reverse]
        simp
        obtain ⟨c, hc⟩ := List.exists_mem_of_ne_nil _ hne
        exact ⟨c, hc, by simp [hall c hc]⟩
    refine ⟨?_, ?_, ?_⟩
    · intro r hr
      simp at hr
      subst hr
      constructor
      · simpa using hne
      · cases b with
        | true =>
          refine Or.inl ?_
          simp only [allWord, List.all_eq_true, List.mem_reverse]
          intro c hc
          exact hall c hc
        | false =>
          refine Or.inr ?_
          simp only [allNonWord, List.all_eq_true, List.mem_reverse]
          intro c hc
          simp [hall c hc]
    · simp
    · intro r0 h0
      simp at h0
      subst h0
      exact hstat
  | cons c cs ih =>
    intro b cur hne hall
    rw [runsAux]
    by_cases hc : isWordChar c = b
    · rw [if_pos hc]
      exact ih b (c :: cur) (by simp) (by
        intro d hd
        rcases List.mem_cons.1 hd with rfl | hd2
        · exact hc
        · exact hall d hd2)
    · rw [if_neg hc]
      have hrev : ∀ d ∈ cur.reverse, isWordChar d = b := by
        intro d hd; exact hall d (List.mem_reverse.1 hd)
      have hrne : cur.reverse ≠ [] := by simpa using hne
      have hstat : allWord cur.reverse = b := by
        cases b with
        | true =>
          simp only [allWord, List.all_eq_true, List.mem_reverse]
          intro d hd
          exact hall d hd
        | false =>
          simp only [allWord, List.all_eq_true, List.mem_reverse]
          simp
          obtain ⟨d, hd⟩ := List.exists_mem_of_ne_nil _ hne
          exact ⟨d, hd, by simp [hall d hd]⟩
      obtain ⟨hruns, hchain, hhead⟩ := ih (isWordChar c) [c] (by simp) (by simp)
      refine ⟨?_, ?_, ?_⟩
      · intro r hr
        rcases List.mem_cons.1 hr with rfl | hr2
        · refine ⟨hrne, ?_⟩
          cases b with
          | true =>
            refine Or.inl ?_
            simp only [allWord, List.all_eq_true, List.mem_reverse]
            intro d hd
            exact hall d hd
          | false =>
            refine Or.inr ?_
            simp only [allNonWord, List.all_eq_true, List.mem_reverse]
            intro d hd
            simp [hall d hd]
        · exact hruns r hr2
      · rw [List.chain'_cons']
        refine ⟨?_, hchain⟩
        intro r0 h0
        rw [hhead r0 h0, hstat]
        cases b with
        | true => simp at hc; simp [hc]
        | false => simp at hc; simp [hc]
      · intro r0 h0
        simp at h0
        rw [← h0]
        exact hstat

theorem charRuns_spec (l : List Char) :
    (∀ r ∈ charRuns l, r ≠ [] ∧ (allWord r = true ∨ allNonWord r = true)) ∧
    List.Chain' (fun a c => allWord a ≠ allWord c) (charRuns l) := by
  cases l with
  | nil => exact ⟨by simp [charRuns], by simp [charRuns]⟩
  | cons c cs =>
    obtain ⟨h1, h2, -⟩ := runsAux_spec cs (isWordChar c) [c] (by simp) (by simp)
    exact ⟨h1, h2⟩

theorem honorifics_allWord : ∀ r ∈ honorifics, allWord r = true := by decide

theorem nonWord_not_honorific {r : List Char} (hne : r ≠ []) (hnw : allNonWord r = true) :
    r ∉ honorifics := by
  intro hmem
  have hw := honorifics_allWord r hmem
  obtain ⟨c, hc⟩ := List.exists_mem_of_ne_nil _ hne
  have h1 : isWordChar c = true := by
    rw [allWord, List.all_eq_true] at hw
    exact hw c hc
  have h2 : (!isWordChar c) = true := by
    rw [allNonWord, List.all_eq_true] at hnw
    exact hnw c hc
  rw [h1] at h2
  cases h2

/-- Filtering the honorific runs out of an alternating run list leaves
no two adjacent word runs. -/
theorem chain_filter_honorifics : ∀ (rs : List (List Char)),
    (∀ r ∈ rs, r ≠ [] ∧ (allWord r = true ∨ allNonWord r = true)) →
    List.Chain' (fun a c => allWord a ≠ allWord c) rs →
    List.Chain' (fun a c => ¬(allWord a = true ∧ allWord c = true))
      (rs.filter (fun r => !decide (r ∈ honorifics))) := by
  intro rs
  induction rs with
  | nil => intro _ _; simp
  | cons r1 rest ih =>
    intro hruns hchain
    have hr1 := hruns r1 (List.mem_cons_self _ _)
    have hchain2 : List.Chain' (fun a c => allWord a ≠ allWord c) rest :=
      (List.chain'_cons'.1 hchain).2
    have hrest : ∀ r ∈ rest, r ≠ [] ∧ (allWord r = true ∨ allNonWord r = true) :=
      fun r hr => hruns r (List.mem_cons_of_mem _ hr)
    by_cases hh : r1 ∈ honorifics
    · rw [List.filter_cons, if_neg (by simp [hh])]
      exact ih hrest hchain2
    · rw [List.filter_cons, if_pos (by simp [hh])]
      rw [List.chain'_cons']
      refine ⟨?_, ih hrest hchain2⟩
      intro r2 h2
      by_cases hw1 : allWord r1 = true
      · -- r1 is a word run; the next surviving run is the next run of rest,
        -- which is a non-word run by alternation (non-word runs survive the filter)
        cases rest with
        | nil => simp at h2
        | cons q qt =>
          have hq := hruns q (by simp)
          have hqw : allWord q = false := by
            have := (List.chain'_cons.1 hchain).1
            rw [hw1] at this
            cases hqw : allWord q with
            | false => rfl
            | true => rw [hqw] at this; exact absurd rfl this
          have hqnw : allNonWord q = true := by
            rcases hq.2 with h | h
            · rw [h] at hqw; cases hqw
            · exact h
          have hqs : q ∉ honorifics := nonWord_not_honorific hq.1 hqnw
          rw [List.filter_cons, if_pos (by simp [hqs])] at h2
          simp at h2
          rw [← h2]
          intro hcc
          rw [hqw] at hcc
          cases hcc.2
      · intro hcc
        exact hw1 hcc.1

/-- Maximal word-character runs, with the same accumulator discipline
as `wordsAux` (used to relate the token splitter to the run
structure). -/
def wordRunsAux (cur : List Char) : List Char → List (List Char)
  | [] => if cur.isEmpty then [] else [cur.reverse]
  | c :: cs =>
    if isWordChar c then wordRunsAux (c :: cur) cs
    else if cur.isEmpty then wordRunsAux [] cs else cur.reverse :: wordRunsAux [] cs

def wordRuns (l : List Char) : List (List Char) := wordRunsAux [] l

theorem wordRunsAux_word_append : ∀ (w : List Char), (∀ c ∈ w, isWordChar c = true) →
    ∀ (cur l : List Char), wordRunsAux cur (w ++ l) = wordRunsAux (w.reverse ++ cur) l := by
  intro w
  induction w with
  | nil => intro _ cur l; simp
  | cons c cs ih =>
    intro hw cur l
    rw [List.cons_append, wordRunsAux]
    rw [if_pos (hw c (by simp))]
    rw [ih (fun d hd => hw d (by simp [hd])) (c :: cur) l]
    simp

theorem wordRunsAux_nonword_append : ∀ (nw : List Char), nw ≠ [] →
    (∀ c ∈ nw, isWordChar c = false) →
    ∀ (cur l : List Char), wordRunsAux cur (nw ++ l) =
      if cur.isEmpty then wordRunsAux [] l else cur.reverse :: wordRunsAux [] l := by
  intro nw
  induction nw with
  | nil => intro h; exact absurd rfl h
  | cons c cs ih =>
    intro _ hnw cur l
    rw [List.cons_append, wordRunsAux]
    rw [if_neg (by simp [hnw c (by simp)])]
    have key : wordRunsAux [] (cs ++ l) = wordRunsAux [] l := by
      by_cases hcs : cs = []
      · subst hcs
        simp
      · rw [ih hcs (fun d hd => hnw d (by simp [hd])) [] l]
        simp
    by_cases hcur : cur.isEmpty
    · rw [if_pos hcur, if_pos hcur, key]
    · rw [if_neg hcur, if_neg hcur, key]

/-- Extracting the word runs of a flattened alternating run list
keeps exactly the word runs. -/
theorem wordRuns_flatten : ∀ (rs : List (List Char)),
    (∀ r ∈ rs, r ≠ [] ∧ (allWord r = true ∨ allNonWord r = true)) →
    List.Chain' (fun a c => ¬(allWord a = true ∧ allWord c = true)) rs →
    wordRuns rs.flatten = rs.filter allWord := by
  intro rs
  induction rs with
  | nil => intro _ _; rfl
  | cons r rest ih =>
    intro hruns hchain
    have hr := hruns r (List.mem_cons_self _ _)
    have hrest : ∀ q ∈ rest, q ≠ [] ∧ (allWord q = true ∨ allNonWord q = true) :=
      fun q hq => hruns q (List.mem_cons_of_mem _ hq)
    have hchain2 := (List.chain'_cons'.1 hchain).2
    rw [List.flatten_cons]
    rcases hr.2 with hw | hnw
    · -- word run: accumulate it, then the rest begins with a non-word run (or ends)
      have hwchars : ∀ c ∈ r, isWordChar c = true := by
        rw [allWord, List.all_eq_true] at hw
        exact hw
      rw [wordRuns, wordRunsAux_word_append r hwchars [] rest.flatten]
      rw [List.filter_cons, if_pos hw]
      cases rest with
      | nil =>
        simp [wordRunsAux]
        intro he
        exact absurd (by simpa using congrArg List.reverse he) hr.1
      | cons q qt =>
        have hq := hrest q (by simp)
        have hqnw : allNonWord q = true := by
          rcases hq.2 with hqw | h
          · exact absurd ⟨hw, hqw⟩ (List.chain'_cons.1 hchain).1
          · exact h
        have hqchars : ∀ c ∈ q, isWordChar c = false := by
          rw [allNonWord, List.all_eq_true] at hqnw
          intro c hc
          simpa using hqnw c hc
        rw [List.flatten_cons]
        rw [wordRunsAux_nonword_append q hq.1 hqchars]
        rw [if_neg (by simp [hr.1])]
        have hih := ih hrest hchain2
        rw [wordRuns, List.flatten_cons] at hih
        rw [wordRunsAux_nonword_append q hq.1 hqchars [] qt.flatten] at hih
        rw [if_pos (by simp)] at hih
        rw [hih]
        simp
    · -- non-word head run: it is skipped by the splitter and dropped by the filter
      have hchars : ∀ c ∈ r, isWordChar c = false := by
        rw [allNonWord, List.all_eq_true] at hnw
        intro c hc
        simpa using hnw c hc
      have hwr : allWord r = false := by
        obtain ⟨c, hc⟩ := List.exists_mem_of_ne_nil _ hr.1
        cases hx : allWord r with
        | false => rfl
        | true =>
          rw [allWord, List.all_eq_true] at hx
          have h1 := hx c hc
          rw [hchars c hc] at h1
          cases h1
      rw [wordRuns, wordRunsAux_nonword_append r hr.1 hchars [] rest.flatten]
      rw [if_pos (by simp)]
      rw [List.filter_cons, if_neg (by simp [hwr])]
      exact ih hrest hchain2

/-- Character condition under which the embedding's word characters
coincide with the kept characters: every word character is a lowercase
alphanumeric (true after lower-casing for underscore-free input). -/
def CW (l : List Char) : Prop := ∀ c ∈ l, isWordChar c = true → isLowerAlnum c = true

theorem lowerAlnum_word {c : Char} (h : isLowerAlnum c = true) : isWordChar c = true := by
  rw [isLowerAlnum] at h
  simp only [Bool.or_eq_true, Bool.and_eq_true, decide_eq_true_eq] at h
  rw [isWordChar, Char.isAlphanum, Char.isAlpha, Char.isLower, Char.isDigit]
  simp only [Bool.or_eq_true, Bool.and_eq_true, decide_eq_true_eq]
  rcases h with ⟨h1, h2⟩ | ⟨h1, h2⟩
  · exact Or.inl (Or.inl (Or.inr ⟨h1, h2⟩))
  · exact Or.inl (Or.inr ⟨h1, h2⟩)

theorem lowerAlnum_not_space {c : Char} (h : isLowerAlnum c = true) : isSpace c = false := by
  cases hs : isSpace c with
  | false => rfl
  | true =>
    exfalso
    rw [isSpace] at hs
    simp only [Bool.or_eq_true, decide_eq_true_eq] at hs
    rw [isLowerAlnum] at h
    rcases hs with ((h1 | h1) | h1) | h1 <;> subst h1 <;> revert h <;> decide

theorem wordsAux_keepAlnum : ∀ (z : List Char), CW z →
    ∀ cur, wordsAux cur (keepAlnumSpace z) = wordRunsAux cur z := by
  intro z
  induction z with
  | nil => intro _ cur; rfl
  | cons c cs ih =>
    intro hcw cur
    have hcs : CW cs := fun d hd hw => hcw d (by simp [hd]) hw
    have hkeep : keepAlnumSpace (c :: cs) =
        (if (isLowerAlnum c || isSpace c) then c else ' ') :: keepAlnumSpace cs := rfl
    rw [hkeep]
    by_cases hw : isWordChar c = true
    · have hla : isLowerAlnum c = true := hcw c (by simp) hw
      rw [if_pos (by simp [hla])]
      rw [wordsAux, if_neg (by simp [lowerAlnum_not_space hla])]
      rw [wordRunsAux, if_pos hw]
      exact ih hcs (c :: cur)
    · have hns : isLowerAlnum c = false := by
        cases hx : isLowerAlnum c with
        | false => rfl
        | true => exact absurd (lowerAlnum_word hx) hw
      by_cases hsp : isSpace c = true
      · rw [if_pos (by simp [hsp])]
        rw [wordsAux, if_pos hsp]
        rw [wordRunsAux, if_neg (show ¬ (isWordChar c = true) from by simp [hw])]
        by_cases hcur : cur.isEmpty
        · rw [if_pos hcur, if_pos hcur]
          exact ih hcs []
        · rw [if_neg hcur, if_neg hcur, ih hcs []]
      · rw [if_neg (by simp [hns, hsp])]
        rw [wordsAux, if_pos (show isSpace ' ' = true by rw [isSpace]; decide)]
        rw [wordRunsAux, if_neg (show ¬ (isWordChar c = true) from by simp [hw])]
        by_cases hcur : cur.isEmpty
        · rw [if_pos hcur, if_pos hcur]
          exact ih hcs []
        · rw [if_neg hcur, if_neg hcur, ih hcs []]

theorem flatten_map_dropHonorific : ∀ (rs : List (List Char)),
    (rs.map dropHonorific).flatten = (rs.filter (fun r => !decide (r ∈ honorifics))).flatten := by
  intro rs
  induction rs with
  | nil => rfl
  | cons r rest ih =>
    rw [List.map_cons, List.flatten_cons, List.filter_cons]
    by_cases hh : r ∈ honorifics
    · rw [dropHonorific, if_pos hh, if_neg (by simp [hh])]
      simpa using ih
    · rw [dropHonorific, if_neg hh, if_pos (by simp [hh])]
      rw [List.flatten_cons, ih]

/-- The tokens produced by the honorific-removal and cleanup stages:
exactly the non-honorific word runs of the input. -/
theorem wordsC_pipeline {y : List Char} (hcw : CW y) :
    wordsC (keepAlnumSpace (stripHonorifics y)) =
      (charRuns y).filter (fun r => allWord r && !decide (r ∈ honorifics)) := by
  have hcw2 : CW (stripHonorifics y) := by
    intro c hc hw
    refine hcw c ?_ hw
    rw [stripHonorifics] at hc
    obtain ⟨r, hr, hcr⟩ := List.mem_flatten.1 hc
    obtain ⟨r0, hr0, hdr⟩ := List.mem_map.1 hr
    have hsub : c ∈ r0 := by
      rw [← hdr, dropHonorific] at hcr
      split at hcr
      · cases hcr
      · exact hcr
    rw [← flatten_charRuns y]
    exact List.mem_flatten.2 ⟨r0, hr0, hsub⟩
  rw [wordsC, wordsAux_keepAlnum _ hcw2 []]
  have hz : stripHonorifics y =
      ((charRuns y).filter (fun r => !decide (r ∈ honorifics))).flatten := by
    rw [stripHonorifics, flatten_map_dropHonorific]
  obtain ⟨hruns, hchain⟩ := charRuns_spec y
  have hflt := wordRuns_flatten ((charRuns y).filter (fun r => !decide (r ∈ honorifics)))
    (fun r hr => hruns r (List.mem_filter.1 hr).1)
    (chain_filter_honorifics _ hruns hchain)
  have hgoal : wordRunsAux [] (stripHonorifics y) =
      wordRuns (stripHonorifics y) := rfl
  rw [hgoal, hz, hflt, List.filter_filter]

theorem runsAux_append_run : ∀ (w : List Char) (b : Bool),
    (∀ c ∈ w, isWordChar c = b) →
    ∀ (cur l : List Char), runsAux b cur (w ++ l) = runsAux b (w.reverse ++ cur) l := by
  intro w
  induction w with
  | nil => intro b _ cur l; simp
  | cons c cs ih =>
    intro b hw cur l
    rw [List.cons_append, runsAux, if_pos (hw c (by simp))]
    rw [ih b (fun d hd => hw d (by simp [hd])) (c :: cur) l]
    simp

theorem charRuns_append_run {w : List Char} {b : Bool} (hne : w ≠ [])
    (hw : ∀ c ∈ w, isWordChar c = b) (l : List Char) :
    charRuns (w ++ l) = runsAux b w.reverse l := by
  cases w with
  | nil => exact absurd rfl hne
  | cons c cs =>
    rw [List.cons_append, charRuns, hw c (by simp)]
    rw [runsAux_append_run cs b (fun d hd => hw d (by simp [hd])) [c] l]
    simp

theorem runsAux_space_word {c : Char} (hc : isWordChar c = true) (rest : List Char) :
    runsAux false [' '] (c :: rest) = [' '] :: charRuns (c :: rest) := by
  rw [runsAux, if_neg (by simp [hc])]
  rfl

theorem unwordsC_nil : unwordsC [] = [] := rfl

theorem unwordsC_single (w : List Char) : unwordsC [w] = w := by
  simp [unwordsC]

theorem unwordsC_cons₂ (a b : List Char) (t : List (List Char)) :
    unwordsC (a :: b :: t) = a ++ ' ' :: unwordsC (b :: t) := by
  rw [unwordsC, unwordsC, List.intersperse_cons₂]
  simp

theorem charRuns_unwordsC : ∀ (ws : List (List Char)),
    (∀ w ∈ ws, w ≠ [] ∧ ∀ c ∈ w, isWordChar c = true) →
    charRuns (unwordsC ws) = ws.intersperse [' '] := by
  intro ws
  induction ws with
  | nil => intro _; rfl
  | cons w1 rest ih =>
    intro hws
    have hw1 := hws w1 (List.mem_cons_self _ _)
    cases rest with
    | nil =>
      rw [unwordsC_single]
      have h2 : w1 ++ ([] : List Char) = w1 := by simp
      rw [← h2, charRuns_append_run hw1.1 hw1.2 []]
      rw [runsAux]
      simp [List.intersperse]
    | cons w2 rt =>
      have hw2 := hws w2 (by simp)
      obtain ⟨c2, w2', rfl⟩ : ∃ c2 w2', w2 = c2 :: w2' := by
        cases w2 with
        | nil => exact absurd rfl hw2.1
        | cons c2 w2' => exact ⟨c2, w2', rfl⟩
      have hc2 : isWordChar c2 = true := hw2.2 c2 (by simp)
      obtain ⟨tail, htail⟩ : ∃ tail, unwordsC ((c2 :: w2') :: rt) = c2 :: tail := by
        cases rt with
        | nil => exact ⟨w2', by rw [unwordsC_single]⟩
        | cons r rt2 =>
          exact ⟨w2' ++ ' ' :: unwordsC (r :: rt2), by rw [unwordsC_cons₂, List.cons_append]⟩
      rw [unwordsC_cons₂, charRuns_append_run hw1.1 hw1.2]
      rw [runsAux, if_neg (show ¬ (isWordChar ' ' = true) from by decide)]
      rw [List.reverse_reverse, htail,
        show isWordChar ' ' = false from by decide,
        runsAux_space_word hc2, ← htail]
      rw [ih (fun w hw => hws w (by simp [hw]))]
      rw [List.intersperse_cons₂]

/-! Character-level facts, phrased through `Char.toNat`. -/

theorem char_eq_iff_toNat (a b : Char) : a = b ↔ a.toNat = b.toNat := by
  constructor
  · intro h; rw [h]
  · intro h
    exact Char.ext (UInt32.ext h)

theorem isUpper_iff (c : Char) : Char.isUpper c = true ↔ 65 ≤ c.toNat ∧ c.toNat ≤ 90 := by
  rw [Char.isUpper, Bool.and_eq_true, decide_eq_true_eq, decide_eq_true_eq]
  exact Iff.rfl

theorem isLower_iff (c : Char) : Char.isLower c = true ↔ 97 ≤ c.toNat ∧ c.toNat ≤ 122 := by
  rw [Char.isLower, Bool.and_eq_true, decide_eq_true_eq, decide_eq_true_eq]
  exact Iff.rfl

theorem isDigit_iff (c : Char) : Char.isDigit c = true ↔ 48 ≤ c.toNat ∧ c.toNat ≤ 57 := by
  rw [Char.isDigit, Bool.and_eq_true, decide_eq_true_eq, decide_eq_true_eq]
  exact Iff.rfl

theorem isLowerAlnum_iff (c : Char) : isLowerAlnum c = true ↔
    (97 ≤ c.toNat ∧ c.toNat ≤ 122) ∨ (48 ≤ c.toNat ∧ c.toNat ≤ 57) := by
  rw [isLowerAlnum, Bool.or_eq_true, Bool.and_eq_true, Bool.and_eq_true,
    decide_eq_true_eq, decide_eq_true_eq, decide_eq_true_eq, decide_eq_true_eq]
  exact Iff.rfl

theorem isWordChar_iff (c : Char) : isWordChar c = true ↔
    (65 ≤ c.toNat ∧ c.toNat ≤ 90) ∨ (97 ≤ c.toNat ∧ c.toNat ≤ 122) ∨
    (48 ≤ c.toNat ∧ c.toNat ≤ 57) ∨ c.toNat = 95 := by
  rw [isWordChar, Char.isAlphanum, Char.isAlpha, Bool.or_eq_true, Bool.or_eq_true,
    Bool.or_eq_true, isUpper_iff, isLower_iff, isDigit_iff, decide_eq_true_eq,
    char_eq_iff_toNat]
  constructor
  · rintro (((h | h) | h) | h)
    · exact Or.inl h
    · exact Or.inr (Or.inl h)
    · exact Or.inr (Or.inr (Or.inl h))
    · exact Or.inr (Or.inr (Or.inr h))
  · rintro (h | h | h | h)
    · exact Or.inl (Or.inl (Or.inl h))
    · exact Or.inl (Or.inl (Or.inr h))
    · exact Or.inl (Or.inr h)
    · exact Or.inr h

theorem toNat_toLower (c : Char) : (Char.toLower c).toNat =
    if 65 ≤ c.toNat ∧ c.toNat ≤ 90 then c.toNat + 32 else c.toNat := by
  have hshow : Char.toLower c =
      if 65 ≤ c.toNat ∧ c.toNat ≤ 90 then Char.ofNat (c.toNat + 32) else c := rfl
  rw [hshow]
  by_cases h : 65 ≤ c.toNat ∧ c.toNat ≤ 90
  · rw [if_pos h, if_pos h]
    have hvalid : (c.toNat + 32).isValidChar := by
      left
      omega
    rw [Char.ofNat, dif_pos hvalid, Char.ofNatAux]
    simp [Char.toNat, UInt32.toNat, BitVec.toNat_ofNatLt]
  · rw [if_neg h, if_neg h]

theorem toLower_eq_underscore {c : Char} (h : Char.toLower c = '_') : c = '_' := by
  rw [char_eq_iff_toNat] at h ⊢
  rw [toNat_toLower] at h
  have h95 : ('_' : Char).toNat = 95 := rfl
  rw [h95] at h ⊢
  split at h
  · omega
  · exact h

theorem toLower_not_upper (c : Char) : Char.isUpper (Char.toLower c) = false := by
  cases hx : Char.isUpper (Char.toLower c) with
  | false => rfl
  | true =>
    exfalso
    rw [isUpper_iff, toNat_toLower] at hx
    split at hx <;> omega

theorem word_lowerAlnum_of_toLower {c0 : Char} (hno : Char.toLower c0 ≠ '_')
    (hw : isWordChar (Char.toLower c0) = true) : isLowerAlnum (Char.toLower c0) = true := by
  rw [isWordChar_iff] at hw
  rw [isLowerAlnum_iff]
  have hup : ¬ (65 ≤ (Char.toLower c0).toNat ∧ (Char.toLower c0).toNat ≤ 90) := by
    rw [← isUpper_iff, toLower_not_upper]
    simp
  have h95 : (Char.toLower c0).toNat ≠ 95 := by
    intro he
    exact hno ((char_eq_iff_toNat _ _).2 (by rw [he]; rfl))
  rcases hw with h | h | h | h
  · exact absurd h hup
  · exact Or.inl h
  · exact Or.inr h
  · exact absurd h h95

theorem mem_of_mem_stripC {c : Char} {l : List Char} (h : c ∈ stripC l) : c ∈ l := by
  rw [stripC] at h
  rw [List.mem_reverse] at h
  have h2 := (List.dropWhile_sublist (l := (l.dropWhile isSpace).reverse) isSpace).mem h
  rw [List.mem_reverse] at h2
  exact (List.dropWhile_sublist isSpace).mem h2

theorem CW_pipeline_input {s : String} (hno : ∀ c ∈ s.data, c ≠ '_') :
    CW (dotCommaToSpace (stripC (s.data.map Char.toLower))) := by
  intro c hc hw
  rw [dotCommaToSpace] at hc
  obtain ⟨c1, hc1, heq⟩ := List.mem_map.1 hc
  by_cases hdot : c1 = '.' || c1 = ','
  · rw [if_pos hdot] at heq
    rw [← heq] at hw
    exact absurd hw (by decide)
  · rw [if_neg hdot] at heq
    subst heq
    have hmem : c1 ∈ s.data.map Char.toLower := mem_of_mem_stripC hc1
    obtain ⟨c0, hc0, hlow⟩ := List.mem_map.1 hmem
    subst hlow
    apply word_lowerAlnum_of_toLower ?_ hw
    intro he
    exact hno c0 hc0 (toLower_eq_underscore he)

theorem mem_intersperse {α : Type} {sep : α} : ∀ {ws : List α} {r : α},
    r ∈ ws.intersperse sep → r = sep ∨ r ∈ ws := by
  intro ws
  induction ws with
  | nil => intro r hr; cases hr
  | cons w rest ih =>
    intro r hr
    cases rest with
    | nil =>
      simp [List.intersperse] at hr
      simp [hr]
    | cons w2 t =>
      rw [List.intersperse_cons₂] at hr
      rcases List.mem_cons.1 hr with rfl | hr2
      · exact Or.inr (by simp)
      · rcases List.mem_cons.1 hr2 with rfl | hr3
        · exact Or.inl rfl
        · rcases ih hr3 with h | h
          · exact Or.inl h
          · exact Or.inr (by simp [h])

theorem mem_unwordsC {c : Char} {ws : List (List Char)} (h : c ∈ unwordsC ws) :
    c = ' ' ∨ ∃ w ∈ ws, c ∈ w := by
  rw [unwordsC] at h
  obtain ⟨r, hr, hcr⟩ := List.mem_flatten.1 h
  rcases mem_intersperse hr with rfl | hr2
  · rw [List.mem_singleton] at hcr
    exact Or.inl hcr
  · exact Or.inr ⟨r, hr2, hcr⟩

theorem map_id_of {f : Char → Char} : ∀ {l : List Char}, (∀ c ∈ l, f c = c) → l.map f = l := by
  intro l
  induction l with
  | nil => intro _; rfl
  | cons c cs ih =>
    intro h
    rw [List.map_cons, h c (by simp), ih (fun d hd => h d (by simp [hd]))]

theorem toLower_id_of_safe {c : Char} (h : isLowerAlnum c = true ∨ c = ' ') :
    Char.toLower c = c := by
  rcases h with h | rfl
  · rw [isLowerAlnum_iff] at h
    rw [char_eq_iff_toNat, toNat_toLower, if_neg (by omega)]
  · decide

theorem notDotComma_of_safe {c : Char} (h : isLowerAlnum c = true ∨ c = ' ') :
    (c = '.' || c = ',') = false := by
  rcases h with h | rfl
  · rw [isLowerAlnum_iff] at h
    have h46 : c ≠ '.' := by
      intro he
      rw [char_eq_iff_toNat] at he
      revert he
      simp only [show ('.' : Char).toNat = 46 from rfl]
      omega
    have h44 : c ≠ ',' := by
      intro he
      rw [char_eq_iff_toNat] at he
      revert he
      simp only [show (',' : Char).toNat = 44 from rfl]
      omega
    simp [h46, h44]
  · decide

theorem nonspace_of_lowerAlnum {c : Char} (h : isLowerAlnum c = true) :
    isSpace c = false := lowerAlnum_not_space h

theorem dropWhile_eq_self_of_head {l : List Char}
    (h : ∀ c, l.head? = some c → isSpace c = false) : l.dropWhile isSpace = l := by
  cases l with
  | nil => rfl
  | cons c cs => rw [List.dropWhile_cons, if_neg (by simp [h c rfl])]

theorem stripC_eq_self {l : List Char}
    (hh : ∀ c, l.head? = some c → isSpace c = false)
    (hl : ∀ c, l.getLast? = some c → isSpace c = false) : stripC l = l := by
  rw [stripC, dropWhile_eq_self_of_head hh]
  rw [dropWhile_eq_self_of_head (by
    intro c hc
    rw [List.head?_reverse] at hc
    exact hl c hc)]
  exact List.reverse_reverse l

theorem head?_unwordsC {ws : List (List Char)} (hne : ∀ w ∈ ws, w ≠ []) :
    ∀ c, (unwordsC ws).head? = some c → ∃ w ∈ ws, c ∈ w := by
  intro c hc
  cases ws with
  | nil => cases hc
  | cons w rest =>
    obtain ⟨c1, w1, rfl⟩ : ∃ c1 w1, w = c1 :: w1 := by
      cases w with
      | nil => exact absurd rfl (hne [] (by simp))
      | cons c1 w1 => exact ⟨c1, w1, rfl⟩
    have hu : ∃ tail, unwordsC ((c1 :: w1) :: rest) = c1 :: tail := by
      cases rest with
      | nil => exact ⟨w1, by rw [unwordsC_single]⟩
      | cons r rt =>
        exact ⟨w1 ++ ' ' :: unwordsC (r :: rt), by rw [unwordsC_cons₂, List.cons_append]⟩
    obtain ⟨tail, htail⟩ := hu
    rw [htail] at hc
    simp at hc
    subst hc
    exact ⟨c1 :: w1, by simp, by simp⟩

theorem getLast?_unwordsC : ∀ (ws : List (List Char)), (∀ w ∈ ws, w ≠ []) →
    ∀ c, (unwordsC ws).getLast? = some c → ∃ w ∈ ws, c ∈ w := by
  intro ws
  induction ws with
  | nil => intro _ c hc; cases hc
  | cons w rest ih =>
    intro hne c hc
    cases rest with
    | nil =>
      rw [unwordsC_single] at hc
      exact ⟨w, by simp, List.mem_of_mem_getLast? hc⟩
    | cons w2 rt =>
      rw [unwordsC_cons₂] at hc
      have hw2ne : w2 ≠ [] := hne w2 (by simp)
      have hrest_ne : ' ' :: unwordsC (w2 :: rt) ≠ [] := by simp
      rw [List.getLast?_append_of_ne_nil w hrest_ne] at hc
      have hu_ne : unwordsC (w2 :: rt) ≠ [] := by
        obtain ⟨c2, w2', rfl⟩ : ∃ c2 w2', w2 = c2 :: w2' := by
          cases w2 with
          | nil => exact absurd rfl hw2ne
          | cons c2 w2' => exact ⟨c2, w2', rfl⟩
        cases rt with
        | nil => rw [unwordsC_single]; simp
        | cons r rt2 => rw [unwordsC_cons₂]; simp
      have hc2 : (unwordsC (w2 :: rt)).getLast? = some c := by
        have hcons : ' ' :: unwordsC (w2 :: rt) = [' '] ++ unwordsC (w2 :: rt) := rfl
        rw [hcons, List.getLast?_append_of_ne_nil [' '] hu_ne] at hc
        exact hc
      obtain ⟨w3, hw3, hcw3⟩ := ih (fun q hq => hne q (by simp [hq])) c hc2
      exact ⟨w3, by simp [hw3], hcw3⟩

theorem filter_intersperse_words : ∀ (ws : List (List Char)),
    (∀ w ∈ ws, allWord w = true ∧ w ∉ honorifics) →
    (ws.intersperse [' ']).filter (fun r => allWord r && !decide (r ∈ honorifics)) = ws := by
  intro ws
  induction ws with
  | nil => intro _; rfl
  | cons w rest ih =>
    intro hws
    have hw := hws w (by simp)
    cases rest with
    | nil =>
      simp [List.intersperse, List.filter_cons, hw.1, hw.2]
    | cons w2 rt =>
      rw [List.intersperse_cons₂, List.filter_cons, if_pos (by simp [hw.1, hw.2])]
      rw [List.filter_cons, if_neg (by decide)]
      rw [ih (fun q hq => hws q (by simp [hq]))]

theorem map_dropHonorific_id : ∀ (rs : List (List Char)),
    (∀ r ∈ rs, r ∉ honorifics) → rs.map dropHonorific = rs := by
  intro rs
  induction rs with
  | nil => intro _; rfl
  | cons r rest ih =>
    intro h
    rw [List.map_cons, dropHonorific, if_neg (h r (by simp)),
      ih (fun q hq => h q (by simp [hq]))]

/-- Strings of the canonical output shape are fixpoints of
`normalize_name`. -/
theorem normalize_fixpoint {ws : List (List Char)}
    (h1 : ∀ w ∈ ws, w ≠ []) (h2 : ∀ w ∈ ws, ∀ c ∈ w, isLowerAlnum c = true)
    (h3 : ∀ w ∈ ws, w ∉ honorifics) :
    normalize_name ⟨unwordsC ws⟩ = ⟨unwordsC ws⟩ := by
  have hchars : ∀ c ∈ unwordsC ws, isLowerAlnum c = true ∨ c = ' ' := by
    intro c hc
    rcases mem_unwordsC hc with rfl | ⟨w, hw, hcw⟩
    · exact Or.inr rfl
    · exact Or.inl (h2 w hw c hcw)
  have hlower : (unwordsC ws).map Char.toLower = unwordsC ws :=
    map_id_of (fun c hc => toLower_id_of_safe (hchars c hc))
  have hstrip : stripC (unwordsC ws) = unwordsC ws := by
    apply stripC_eq_self
    · intro c hc
      obtain ⟨w, hw, hcw⟩ := head?_unwordsC h1 c hc
      exact nonspace_of_lowerAlnum (h2 w hw c hcw)
    · intro c hc
      obtain ⟨w, hw, hcw⟩ := getLast?_unwordsC ws h1 c hc
      exact nonspace_of_lowerAlnum (h2 w hw c hcw)
  have hdot : dotCommaToSpace (unwordsC ws) = unwordsC ws := by
    apply map_id_of
    intro c hc
    rw [if_neg (by simp [notDotComma_of_safe (hchars c hc)])]
  have hwords : ∀ w ∈ ws, w ≠ [] ∧ ∀ c ∈ w, isWordChar c = true := by
    intro w hw
    exact ⟨h1 w hw, fun c hc => lowerAlnum_word (h2 w hw c hc)⟩
  have hruns : charRuns (unwordsC ws) = ws.intersperse [' '] := charRuns_unwordsC ws hwords
  have hhon : stripHonorifics (unwordsC ws) = unwordsC ws := by
    rw [stripHonorifics, hruns, map_dropHonorific_id]
    · rw [unwordsC]
    · intro r hr
      rcases mem_intersperse hr with rfl | hr2
      · decide
      · exact h3 r hr2
  have hcwt : CW (unwordsC ws) := by
    intro c hc hw
    rcases hchars c hc with h | rfl
    · exact h
    · exact absurd hw (by decide)
  rw [normalize_name]
  rw [show (String.mk (unwordsC ws)).data = unwordsC ws from rfl]
  rw [hlower, hstrip, hdot, hhon]
  rw [show wordsC (keepAlnumSpace (unwordsC ws)) =
      wordsC (keepAlnumSpace (stripHonorifics (unwordsC ws))) from by rw [hhon]]
  rw [wordsC_pipeline hcwt, hruns, filter_intersperse_words ws
    (fun w hw => ⟨(by
      rw [allWord, List.all_eq_true]
      exact fun c hc => lowerAlnum_word (h2 w hw c hc)), h3 w hw⟩)]

/-- For an underscore-free input, `normalize_name` produces a string
of the canonical shape. -/
theorem normalize_output_canonical {s : String} (hno : ∀ c ∈ s.data, c ≠ '_') :
    ∃ ws : List (List Char), normalize_name s = ⟨unwordsC ws⟩ ∧
      (∀ w ∈ ws, w ≠ []) ∧ (∀ w ∈ ws, ∀ c ∈ w, isLowerAlnum c = true) ∧
      (∀ w ∈ ws, w ∉ honorifics) := by
  have hcw := CW_pipeline_input hno
  refine ⟨(charRuns (dotCommaToSpace (stripC (s.data.map Char.toLower)))).filter
    (fun r => allWord r && !decide (r ∈ honorifics)), ?_, ?_, ?_, ?_⟩
  · rw [normalize_name, wordsC_pipeline hcw]
  · intro w hw
    exact ((charRuns_spec _).1 w (List.mem_filter.1 hw).1).1
  · intro w hw c hc
    have hmem := List.mem_filter.1 hw
    have hword : allWord w = true := by
      have h2 := hmem.2
      simp only [Bool.and_eq_true] at h2
      exact h2.1
    have hcy : c ∈ dotCommaToSpace (stripC (s.data.map Char.toLower)) := by
      rw [← flatten_charRuns (dotCommaToSpace (stripC (s.data.map Char.toLower)))]
      exact List.mem_flatten.2 ⟨w, hmem.1, hc⟩
    apply hcw c hcy
    rw [allWord, List.all_eq_true] at hword
    exact hword c hc
  · intro w hw
    have h2 := (List.mem_filter.1 hw).2
    simp only [Bool.and_eq_true, Bool.not_eq_true', decide_eq_false_iff_not] at h2
    exact h2.2

/-- Counterexample to C2 as stated: `normalize_name` is not idempotent
on the input `"_md"`: the first pass turns the underscore into a space
(the underscore shields `md` from the word-boundary honorific match),
leaving the token `md`, which the second pass removes. -/
theorem claim2_counterexample :
    normalize_name "_md" = "md" ∧
    normalize_name (normalize_name "_md") ≠ normalize_name "_md" := by
  constructor
  · decide
  · decide

/-- C2 (amended): `normalize_name` is idempotent on ASCII strings that
do not contain an underscore (Python's `\w` also covers `_` and
non-ASCII word characters, which the `[^a-z0-9\s]` cleanup later
rewrites, so such characters can expose new honorific tokens to a
second pass). -/
theorem claim2_amended (s : String) (hascii : ∀ c ∈ s.data, c.toNat < 128)
    (hno : ∀ c ∈ s.data, c ≠ '_') :
    normalize_name (normalize_name s) = normalize_name s := by
  obtain ⟨ws, heq, h1, h2, h3⟩ := normalize_output_canonical hno
  rw [heq]
  exact normalize_fixpoint h1 h2 h3

/-- Witness for the amended C2 at a concrete honorific-laden name. -/
theorem claim2_witness :
    normalize_name (normalize_name "Dr. John A. Smith, Jr.") =
      normalize_name "Dr. John A. Smith, Jr." :=
  claim2_amended "Dr. John A. Smith, Jr." (by decide) (by decide)
